import Mathlib

/-!
# Verification of the JohnKaptain humanizer core

Shallow embedding of `src/components/kaptainhumanizer.jsx` (the rewrite
pipeline and the heuristic AI-scan engine).  Text is modelled as `List Char`;
JavaScript regular-expression operations are translated into explicit
character-list scanners with the same matching semantics; JavaScript numbers
are modelled as exact rationals (`ℚ`).  `Math.sqrt` is not computable over
`ℚ`, so the scan takes the square-root function as an explicit parameter
`sqrtFn`; no theorem below depends on its value.  `Math.random()` is modelled
as an explicit stream `ℕ → ℚ` of draws threaded through the rewrite
functions; the scan never consumes a draw.
-/

set_option maxRecDepth 8000

/- Batteries marks the arithmetic of `Rat` `@[irreducible]`, which blocks
`decide`-style evaluation of concrete scan results; restore the default
reducibility for this file. -/
attribute [local semireducible] Rat.mul Rat.inv Rat.add Rat.sub Rat.ofScientific

namespace Humanizer


/-- Text as a list of characters. -/
abbrev Str := List Char

/-- Coerce a Lean string literal to our text representation. -/
def str (s : String) : Str := s.data

/-! ## Character classes (JavaScript regex semantics) -/

/-- JS `\s` (the ASCII part, which is all the source ever produces). -/
def isJsSpace (c : Char) : Bool :=
  c = ' ' || c = '\t' || c = '\n' || c = '\r' || c = '\x0b' || c = '\x0c'

def isLowerAz (c : Char) : Bool := 'a' ≤ c && c ≤ 'z'

def isUpperAz (c : Char) : Bool := 'A' ≤ c && c ≤ 'Z'

def isDigitChar (c : Char) : Bool := '0' ≤ c && c ≤ '9'

def isAsciiLetter (c : Char) : Bool := isLowerAz c || isUpperAz c

/-- JS `\w`: `[A-Za-z0-9_]`. -/
def isWordChar (c : Char) : Bool := isAsciiLetter c || isDigitChar c || c = '_'

/-- First character of `WORD_RE = /[A-Za-z0-9][A-Za-z0-9'-]*\/g`. -/
def isWordReStart (c : Char) : Bool := isAsciiLetter c || isDigitChar c

/-- Continuation characters of `WORD_RE`. -/
def isWordReCont (c : Char) : Bool :=
  isAsciiLetter c || isDigitChar c || c = '\'' || c = '-'

/-- JS `\b` between two (optional) adjacent characters: word-ness differs. -/
def isBoundaryBetween (prev next : Option Char) : Bool :=
  (prev.map isWordChar).getD false != (next.map isWordChar).getD false

def lowerStr (l : Str) : Str := l.map Char.toLower

def upperStr (l : Str) : Str := l.map Char.toUpper

/-- `title` from the source: upper-case the first character only. -/
def titleStr : Str → Str
  | [] => []
  | c :: rest => c.toUpper :: rest

/-- JS `String.prototype.trim`. -/
def trimL (t : Str) : Str :=
  ((t.dropWhile isJsSpace).reverse.dropWhile isJsSpace).reverse

/-- `Math.round` as JS implements it on our inputs: floor of `q + 1/2`. -/
def jsRound (q : ℚ) : ℤ := ⌊q + 1 / 2⌋

/-- `clamp01` from the source. -/
def clamp01 (x : ℚ) : ℚ := max 0 (min 1 x)

/-! ## `WORD_RE` token scanning and `capToWords` -/

/-- All matches of `WORD_RE`, left to right, greedy (no backtracking is
possible for this pattern: it has no boundary assertions).  The `fuel`
parameter makes the recursion structural so that it evaluates inside the
kernel; `fuel = length of the text` always suffices since at least one
character is consumed per step. -/
def wmGo : ℕ → Str → List Str
  | 0, _ => []
  | _, [] => []
  | fuel + 1, c :: cs =>
    if isWordReStart c then
      (c :: cs.takeWhile isWordReCont) :: wmGo fuel (cs.dropWhile isWordReCont)
    else
      wmGo fuel cs

def wordMatches (l : Str) : List Str := wmGo l.length l

/-- End positions (`m.index + m[0].length`) of the `WORD_RE` matches, in
match order, offsets measured from the start of the scanned text. -/
def wmEndsGo : ℕ → Str → ℕ → List ℕ
  | 0, _, _ => []
  | _, [], _ => []
  | fuel + 1, c :: cs, p =>
    if isWordReStart c then
      let k := (cs.takeWhile isWordReCont).length
      (p + 1 + k) :: wmEndsGo fuel (cs.dropWhile isWordReCont) (p + 1 + k)
    else
      wmEndsGo fuel cs (p + 1)

def wordMatchEnds (l : Str) : List ℕ := wmEndsGo l.length l 0

/-- The `while ((m = re.exec(text)) !== null)` loop of `capToWords`:
returns the final `(count, lastEnd)` pair. -/
def capLoop : List ℕ → ℕ → ℕ → ℕ → ℕ × ℕ
  | [], count, lastEnd, _ => (count, lastEnd)
  | e :: es, count, _, maxWords =>
    if count + 1 ≥ maxWords then (count + 1, e) else capLoop es (count + 1) e maxWords

/-- `capToWords` from the source. -/
def capToWords (t : Str) (maxWords : ℕ) : Str :=
  if t = [] then []
  else
    let r := capLoop (wordMatchEnds t) 0 0 maxWords
    if r.1 < maxWords then t else t.take r.2

/-- `wordCount` from the source. -/
def wordCount (t : Str) : ℕ := (wordMatches t).length

/-! ## Segmenter -/

/-- The `\r\n → \n` normalization inside `splitParagraphs`. -/
def replaceCRLF : Str → Str
  | [] => []
  | '\r' :: '\n' :: rest => '\n' :: replaceCRLF rest
  | c :: rest => c :: replaceCRLF rest

/-- `split(/\n{2,}/)`: a separator is a maximal run of two-or-more newlines.
State machine: `sep = true` while consuming the remainder of a separator run,
`acc` holds the current piece reversed. -/
def spGo (sep : Bool) (acc : Str) : Str → List Str
  | [] => [acc.reverse]
  | c :: rest =>
    if sep && (c = '\n' : Bool) then
      spGo true acc rest
    else if (c = '\n' : Bool) && (rest.head? = some '\n' : Bool) then
      acc.reverse :: spGo true [] rest
    else
      spGo false (c :: acc) rest

/-- `splitParagraphs` from the source. -/
def splitParagraphs (t : Str) : List Str := spGo false [] (replaceCRLF t)

/-- `joinParagraphs` from the source. -/
def joinParagraphs (ps : List Str) : Str := List.intercalate (str "\n\n") ps

/-- `replace(/\s+/g, " ")`: collapse every whitespace run to one space. -/
def collapseWs : Bool → Str → Str
  | _, [] => []
  | prevSpace, c :: rest =>
    if isJsSpace c then
      if prevSpace then collapseWs true rest else ' ' :: collapseWs true rest
    else
      c :: collapseWs false rest

def isTermPunct (c : Char) : Bool := c = '.' || c = '!' || c = '?'

/-- `split(/([.!?]+)\s+/)` followed by the reduce/filter of `splitSentences`:
cut after each maximal `[.!?]+` run that is followed by whitespace (the
punctuation stays with the preceding piece, the greedy `\s+` is consumed).
State machine: `acc` is the current piece reversed, `run` a pending reversed
punctuation run, `skipWs` true while consuming the `\s+` after a cut. -/
def ssGo (skipWs : Bool) (acc run : Str) : Str → List Str
  | [] => if run = [] then [acc.reverse] else [(run ++ acc).reverse]
  | c :: rest =>
    if skipWs && isJsSpace c then
      ssGo true acc run rest
    else if isTermPunct c then
      ssGo false acc (c :: run) rest
    else if run ≠ [] then
      if isJsSpace c then
        (run ++ acc).reverse :: ssGo true [] [] rest
      else
        ssGo false (c :: (run ++ acc)) [] rest
    else
      ssGo false (c :: acc) run rest

/-- `splitSentences` from the source. -/
def splitSentences (p : Str) : List Str :=
  let parts := ((ssGo false [] [] (collapseWs false p)).map trimL).filter (· ≠ [])
  if parts = [] then [trimL p] else parts

/-- `joinSentences` from the source. -/
def joinSentences (ss : List Str) : Str := List.intercalate [' '] ss

/-! ## Lexicon tables (scan side) -/

/-- The `STOP` set from the source. -/
def STOP : List Str :=
  (["the","a","an","and","or","but","if","then","when","while","of","to","in","on","for","as","by","at",
    "from","with","about","into","over","after","before","between","through","during","above","below",
    "up","down","out","off","again","further","here","there","all","any","both","each","few","more","most",
    "other","some","such","no","nor","not","only","own","same","so","than","too","very","can","will","just",
    "should","now","is","am","are","was","were","be","been","being","it","its","they","them","their","we",
    "our","you","your","i","he","him","his","she","her","hers","this","that","these","those"] :
    List String).map str

/-- The `STOCK_OPENERS` list from the source. -/
def STOCK_OPENERS : List Str :=
  (["in conclusion", "in summary", "in addition", "moreover", "furthermore", "overall",
    "to conclude", "to summarize", "additionally", "as a result", "therefore", "however"] :
    List String).map str

/-! ## Feature extractor -/

/-- The suffix alternatives of the stemmer regex `/(ing|ed|ly|ment|tion|s)$/`. -/
def STEM_SUFFIXES : List Str := (["ing", "ed", "ly", "ment", "tion", "s"] : List String).map str

/-- `stemToken` from the source.  The six alternatives end in six distinct
characters, so at most one of them can be a suffix of the lower-cased token;
removing it is exactly what the anchored leftmost-match replace does. -/
def stemToken (t : Str) : Str :=
  let l := lowerStr t
  match STEM_SUFFIXES.find? (fun suf => suf.isSuffixOf l) with
  | some suf => l.take (l.length - suf.length)
  | none => l

/-- Case-insensitive prefix test (used for literal pattern fragments):
does `s` start with `p` up to ASCII case? -/
def startsWithCI : Str → Str → Bool
  | [], _ => true
  | _ :: _, [] => false
  | p :: ps, c :: cs => (p.toLower == c.toLower) && startsWithCI ps cs

/-- The test `new RegExp("^\\s*" + p + "\\b", "i").test(s)` from
`sentenceMetrics`: optional leading whitespace, the phrase case-insensitively,
then a word boundary. -/
def openerTest (p s : Str) : Bool :=
  let s' := s.dropWhile isJsSpace
  startsWithCI p s' &&
    isBoundaryBetween (s'.take p.length).getLast? (s'.drop p.length).head?

/-- The record computed by `sentenceMetrics`. -/
structure Metrics where
  len : ℕ
  avgLen : ℚ
  commas : ℕ
  openers : Bool
  unique : ℕ
  words : ℕ
deriving DecidableEq

/-- `sentenceMetrics` from the source. -/
def sentenceMetrics (s : Str) : Metrics :=
  let tokens := wordMatches s
  let words := tokens.filter (fun w => !STOP.contains (lowerStr w))
  { len := tokens.length
    avgLen := if tokens.length ≠ 0 then ((tokens.flatten.length : ℚ) / (tokens.length : ℚ)) else 0
    commas := s.count ','
    openers := STOCK_OPENERS.any (fun p => openerTest p s)
    unique := ((words.map stemToken).dedup).length
    words := words.length }

/-! ## Score aggregator -/

/-- The result record of `computeAIScan`. -/
structure ScanResult where
  ai : ℤ
  human : ℤ
  perSentence : List (Str × ℚ)
  threshold : ℚ
deriving DecidableEq

/-- The per-sentence cue-strength expression inside `computeAIScan`. -/
def cueOf (m : Metrics) : ℚ :=
  (if m.len < 9 then 0 else (m.len : ℚ) / 25)
    + (m.avgLen - 5.5) * 0.6
    + (if m.commas > 2 then 0.8 else 0)
    + (if m.openers then 1.2 else 0)

/-- Insert into an ascending-sorted list. -/
def insertSorted (x : ℚ) : List ℚ → List ℚ
  | [] => [x]
  | y :: ys => if x ≤ y then x :: y :: ys else y :: insertSorted x ys

/-- Ascending numeric sort: the JS `.sort((a, b) => a - b)`.  (For a linear
order the sorted arrangement of a multiset is unique, so any correct sort
gives the array JS produces.) -/
def sortAsc (l : List ℚ) : List ℚ := l.foldr insertSorted []

/-- `paras.flatMap(splitSentences).filter(Boolean)` from `computeAIScan`. -/
def sentencesOf (t : Str) : List Str :=
  (((splitParagraphs t).map splitSentences).flatten).filter (· ≠ [])

/-- `computeAIScan` from the source.  `sqrtFn` stands for `Math.sqrt`
(irrational in general, hence a parameter); `rnd` is the ambient
`Math.random` stream, which — as in the source — is never consulted. -/
def computeAIScan (sqrtFn : ℚ → ℚ) (rnd : ℕ → ℚ) (t : Str) : ScanResult :=
  let _ := rnd
  let sentences := sentencesOf t
  if sentences = [] then ⟨0, 100, [], 0⟩ else
  let ms := sentences.map sentenceMetrics
  let lens : List ℚ := ms.map (fun m => (m.len : ℚ))
  let mean := lens.sum / (lens.length : ℚ)
  let variance := (lens.map (fun b => (b - mean) ^ 2)).sum / (lens.length : ℚ)
  let stdev := sqrtFn variance
  let cov := if mean ≠ 0 then stdev / mean else 0
  let uniqueTotals := ms.map (fun m => if m.words ≠ 0 then (m.unique : ℚ) / (m.words : ℚ) else 1)
  let uniqAvg := uniqueTotals.sum / (uniqueTotals.length : ℚ)
  let avgWordLen := (ms.map Metrics.avgLen).sum / (ms.length : ℚ)
  let commaRate := (ms.map (fun m => (m.commas : ℚ))).sum / max 1 (ms.length : ℚ)
  let openerCount := (ms.filter Metrics.openers).length
  let score : ℚ :=
    45 * (0.28 - min 0.28 cov)
      + 25 * (0.58 - min 0.58 uniqAvg)
      + 10 * min 1 ((openerCount : ℚ) / max 1 ((sentences.length : ℚ) / 4))
      + 10 * max 0 ((avgWordLen - 5.6) / 2.2)
      + 10 * max 0 ((commaRate - 0.8) / 2)
  let ai := max 0 (min 100 (jsRound score))
  let perSentence := sentences.map (fun s => (s, cueOf (sentenceMetrics s)))
  let sorted := sortAsc (perSentence.map Prod.snd)
  let idx := (⌊(sorted.length : ℚ) * 0.6⌋).toNat
  let thr0 := sorted.getD idx 0
  { ai := ai
    human := 100 - ai
    perSentence := perSentence
    threshold := if thr0 = 0 then 0.75 else thr0 }

/-! ## Spec-side definitions (worded from `spec.md`, for comparison) -/

/-- Token count of a sentence (spec §4.6 `len`). -/
def tokenCount (s : Str) : ℕ := (wordMatches s).length

/-- Average token character length of a sentence (spec §4.6 `avgLen`). -/
def avgTokenLen (s : Str) : ℚ :=
  if tokenCount s ≠ 0 then (((wordMatches s).map List.length).sum : ℚ) / (tokenCount s : ℚ)
  else 0

/-- Comma count of a sentence (spec §4.6). -/
def commaCount (s : Str) : ℕ := s.count ','

/-- Spec §4.6 `hasStockOpener`. -/
def hasStockOpener (s : Str) : Bool := STOCK_OPENERS.any (fun p => openerTest p s)

/-- The per-sentence cue-strength formula exactly as claim C3 states it:
`max(0, len/25) + (avgLen − 5.5) × 0.6 + (commas>2 ? 0.8 : 0) + (opener ? 1.2 : 0)`. -/
def specCueClaim (s : Str) : ℚ :=
  max 0 ((tokenCount s : ℚ) / 25) + (avgTokenLen s - 5.5) * 0.6
    + (if commaCount s > 2 then 0.8 else 0) + (if hasStockOpener s then 1.2 else 0)

/-- The amended per-sentence cue formula: the `len/25` term is zeroed out for
sentences of fewer than 9 tokens (as the code does), instead of `max 0`. -/
def specCueAmended (s : Str) : ℚ :=
  (if tokenCount s < 9 then 0 else (tokenCount s : ℚ) / 25) + (avgTokenLen s - 5.5) * 0.6
    + (if commaCount s > 2 then 0.8 else 0) + (if hasStockOpener s then 1.2 else 0)

/-- The cue-strength values of a document's sentences, in document order. -/
def cuesOf (t : Str) : List ℚ := (sentencesOf t).map (fun s => cueOf (sentenceMetrics s))

/-- The value at index `⌊0.6 · n⌋` of the ascending-sorted cue list (the
"60th percentile" the code computes), `0` when out of range. -/
def percentile60 (t : Str) : ℚ :=
  (sortAsc (cuesOf t)).getD ((⌊((cuesOf t).length : ℚ) * 0.6⌋).toNat) 0

/-! ## Claim C2: the aggregate score formula -/

/-- Spec §4.6: the per-sentence token lengths of the document. -/
def docLens (t : Str) : List ℚ :=
  ((sentencesOf t).map sentenceMetrics).map (fun m => (m.len : ℚ))

/-- Spec §4.6: mean sentence length. -/
def docMean (t : Str) : ℚ := (docLens t).sum / ((docLens t).length : ℚ)

/-- Spec §4.6: (population) variance of sentence lengths. -/
def docVariance (t : Str) : ℚ :=
  ((docLens t).map (fun b => (b - docMean t) ^ 2)).sum / ((docLens t).length : ℚ)

/-- Spec §4.6: coefficient of variation `stdev/mean` (0 if the mean is 0);
`f` stands for the square root. -/
def covOf (f : ℚ → ℚ) (t : Str) : ℚ :=
  if docMean t ≠ 0 then f (docVariance t) / docMean t else 0

/-- Spec §4.6: mean per-sentence uniqueness ratio. -/
def uniqAvgOf (t : Str) : ℚ :=
  let u := ((sentencesOf t).map sentenceMetrics).map
    (fun m => if m.words ≠ 0 then (m.unique : ℚ) / (m.words : ℚ) else 1)
  u.sum / (u.length : ℚ)

/-- Spec §4.6: mean of the per-sentence average word lengths. -/
def avgWordLenOf (t : Str) : ℚ :=
  (((sentencesOf t).map sentenceMetrics).map Metrics.avgLen).sum
    / (((sentencesOf t).length : ℚ))

/-- Spec §4.6: mean comma count. -/
def avgCommaOf (t : Str) : ℚ :=
  (((sentencesOf t).map sentenceMetrics).map (fun m => (m.commas : ℚ))).sum
    / (((sentencesOf t).length : ℚ))

/-- Spec §4.6: fraction of sentences that begin with a stock opener. -/
def openerFractionOf (t : Str) : ℚ :=
  (((((sentencesOf t).map sentenceMetrics).filter Metrics.openers).length : ℕ) : ℚ)
    / ((sentencesOf t).length : ℚ)

/-- The score formula exactly as claim C2 (spec §4.6) states it. -/
def specScoreClaim (f : ℚ → ℚ) (t : Str) : ℚ :=
  45 * max 0 (0.28 - min 0.28 (covOf f t))
    + 25 * max 0 (0.58 - min 0.58 (uniqAvgOf t))
    + 10 * min 1 (openerFractionOf t * 4)
    + 10 * max 0 ((avgWordLenOf t - 5.6) / 2.2)
    + 10 * max 0 ((avgCommaOf t - 0.8) / 2)

/-- Claim C2's aiScore: the formula value clamped to `[0,100]` and rounded. -/
def specAiScoreClaim (f : ℚ → ℚ) (t : Str) : ℤ :=
  jsRound (max 0 (min 100 (specScoreClaim f t)))

/-! ## Lexicon tables (rewrite side) -/

/-- The `SIMPLE` map from the source, in insertion (iteration) order. -/
def SIMPLE : List (Str × Str) :=
  ([("approximately", "about"), ("numerous", "many"), ("sufficient", "enough"),
    ("facilitate", "help"), ("subsequently", "later"), ("prior", "before"),
    ("subsequent", "after"), ("acquire", "get"), ("purchase", "buy"),
    ("demonstrate", "show"), ("utilize", "use"), ("commence", "begin"),
    ("conclude", "finish"), ("objective", "goal"), ("objectives", "goals"),
    ("methodology", "method"), ("methodologies", "methods"), ("endeavor", "effort"),
    ("attempt", "try"), ("therefore", "so"), ("however", "but"), ("moreover", "also"),
    ("furthermore", "also"), ("consequently", "so"), ("regarding", "about"),
    ("obtain", "get"), ("assist", "help"), ("maintain", "keep"),
    ("ensure", "make sure"), ("favorable", "good"), ("feasible", "possible"),
    ("leverage", "use"), ("indicates", "shows"), ("illustrate", "show"),
    ("aforementioned", "mentioned"), ("optimal", "best possible"),
    ("paramount", "most important"), ("ascertain", "find out"), ("mitigate", "reduce"),
    ("explicate", "explain"), ("explicates", "explains"), ("explicated", "explained"),
    ("comprehension", "understanding"), ("individuals", "people"),
    ("components", "parts"), ("implementation", "application"), ("implement", "apply"),
    ("prioritize", "focus on"), ("adequate", "enough"), ("insufficient", "not enough"),
    ("nevertheless", "even so"), ("notwithstanding", "despite"),
    ("consequently_", "so")] : List (String × String)).map (fun kv => (str kv.1, str kv.2))

/-- The `SYN` synonym table from the source. -/
def SYN : List (Str × List Str) :=
  ([("important", ["crucial", "vital", "essential", "significant", "key"]),
    ("advantage", ["benefit", "upside", "plus"]),
    ("disadvantage", ["drawback", "downside", "limitation"]),
    ("impact", ["effect", "influence", "reach"]),
    ("improve", ["enhance", "boost", "strengthen", "refine"]),
    ("improvement", ["enhancement", "gain", "upgrade", "advance"]),
    ("show", ["reveal", "indicate", "demonstrate", "display", "exhibit"]),
    ("result", ["outcome", "effect", "consequence", "upshot"]),
    ("issue", ["problem", "challenge", "concern", "difficulty"]),
    ("help", ["aid", "assist", "support", "enable"]),
    ("build", ["create", "develop", "construct", "form"]),
    ("create", ["build", "produce", "craft", "form"]),
    ("use", ["apply", "employ"]),
    ("clear", ["evident", "apparent", "plain", "obvious"]),
    ("choose", ["select", "pick", "opt for", "decide on"]),
    ("complex", ["complicated", "intricate", "multi-layered"]),
    ("simple", ["straightforward", "basic", "plain"]),
    ("common", ["typical", "usual", "frequent", "widespread"]),
    ("rare", ["uncommon", "infrequent", "scarce"]),
    ("begin", ["start", "kick off"]),
    ("end", ["finish", "wrap up", "conclude"]),
    ("explain", ["clarify", "break down", "unpack"]),
    ("reason", ["cause", "basis", "ground"]),
    ("evidence", ["proof", "support", "documentation"]),
    ("goal", ["aim", "purpose", "target", "objective"]),
    ("change", ["alter", "modify", "shift", "adjust"]),
    ("effective", ["workable", "practical", "efficient"]),
    ("efficient", ["effective", "productive"]),
    ("analyze", ["examine", "study", "inspect", "evaluate"]),
    ("argue", ["contend", "maintain", "claim", "assert"]),
    ("because", ["since"]),
    ("importanty", ["crucially"])] : List (String × List String)).map
    (fun kv => (str kv.1, kv.2.map str))

/-- The `PHRASE_SWAPS` table from the source (pattern, replacement); each
pattern is a literal phrase with a trailing `\b`, matched case-insensitively
and with no leading boundary. -/
def PHRASE_SWAPS : List (Str × Str) :=
  ([("in order to", "to"), ("due to the fact that", "because"),
    ("it is important to note that", "note that"),
    ("it should be noted that", "note that"),
    ("plays a significant role in", "matters for"), ("in the context of", "in"),
    ("with respect to", "about"), ("as a result", "so"), ("by means of", "with"),
    ("in light of", "considering"), ("a wide range of", "many")] :
    List (String × String)).map (fun kv => (str kv.1, str kv.2))

/-- The `HEDGES` map from the source. -/
def HEDGES : List (Str × Str) :=
  ([("always", "often"), ("never", "rarely"), ("proves", "suggests"),
    ("perfect", "great"), ("flawless", "strong"), ("undeniable", "clear"),
    ("impossible", "very unlikely")] : List (String × String)).map
    (fun kv => (str kv.1, str kv.2))

/-- The verb alternatives of `dropFillerThat`, in regex alternation order. -/
def FILLER_VERBS : List Str :=
  (["say", "says", "said", "believe", "believes", "believed", "think", "thinks",
    "thought", "feel", "feels", "felt", "argue", "argues", "argued", "note",
    "notes", "noted"] : List String).map str

/-- The `be`-form alternatives of `passiveToActive` (case-sensitive). -/
def BE_FORMS : List Str :=
  (["was", "were", "is", "are", "been", "being"] : List String).map str

/-- The subordinators of `reorderClauses`, in alternation order. -/
def RC_CONJS : List Str :=
  (["because", "when", "if", "although"] : List String).map str

/-- The conjunctions of the split-point search in `weaveLengths`. -/
def WEAVE_CONJS : List Str :=
  (["and", "but", "because", "which", "so", "although", "when", "if"] :
    List String).map str

/-! ## Generic replace engines -/

/-- Global case-insensitive whole-word replace (`\b key \b` with flags `ig`):
at every position with a word boundary before, a case-insensitive occurrence
of `key` and a word boundary after, emit `repl` applied to the matched text
and resume after the match.  `fuel = text length` suffices (each step
consumes at least one character). -/
def rwwGo (key : Str) (repl : Str → Str) : ℕ → Option Char → Str → Str
  | 0, _, _ => []
  | _, _, [] => []
  | fuel + 1, prev, c :: rest =>
    if key ≠ [] ∧ startsWithCI key (c :: rest) ∧
        isBoundaryBetween prev (some c) ∧
        isBoundaryBetween ((c :: rest).take key.length).getLast?
          ((c :: rest).drop key.length).head? then
      repl ((c :: rest).take key.length) ++
        rwwGo key repl fuel ((c :: rest).take key.length).getLast?
          ((c :: rest).drop key.length)
    else
      c :: rwwGo key repl fuel (some c) rest

def replaceWholeWordCI (key : Str) (repl : Str → Str) (s : Str) : Str :=
  rwwGo key repl s.length none s

/-- Global case-insensitive literal-phrase replace with a trailing `\b` only
(the shape of every `PHRASE_SWAPS` pattern). -/
def rpGo (pat : Str) (repl : Str) : ℕ → Str → Str
  | 0, _ => []
  | _, [] => []
  | fuel + 1, c :: rest =>
    if pat ≠ [] ∧ startsWithCI pat (c :: rest) ∧
        isBoundaryBetween ((c :: rest).take pat.length).getLast?
          ((c :: rest).drop pat.length).head? then
      repl ++ rpGo pat repl fuel ((c :: rest).drop pat.length)
    else
      c :: rpGo pat repl fuel rest

def replacePhraseCI (pat repl s : Str) : Str := rpGo pat repl s.length s

/-- Trailing-boundary backtracking for a greedy token: `cs` is the reversed
greedy token, `next` the character following it; drop trailing characters
until a word boundary holds (returns the kept token, reversed). -/
def btRev : Str → Option Char → Str
  | [], _ => []
  | c :: cs, next => if isBoundaryBetween (some c) next then c :: cs else btRev cs (some c)

/-- JS `s.split(/\s+/)`: pieces between maximal whitespace runs (with the
empty leading/trailing pieces JS produces). -/
def swGo (inWs : Bool) (acc : Str) : Str → List Str
  | [] => [acc.reverse]
  | c :: rest =>
    if isJsSpace c then
      if inWs then swGo true acc rest
      else acc.reverse :: swGo true [] rest
    else
      swGo false (c :: acc) rest

def jsSplitWs (s : Str) : List Str := swGo false [] s

/-! ## Lexical rewriter -/

/-- The replacement callback of `simplifyWords`:
`m[0] === m[0].toUpperCase() ? title(v) : v` (note: it inspects only the
first character of the matched token). -/
def simpleReplace (v : Str) (m : Str) : Str :=
  match m with
  | [] => v
  | c :: _ => if c.toUpper = c then titleStr v else v

/-- `simplifyWords` from the source: fold the whole-word replaces over the
`SIMPLE` entries in iteration order. -/
def simplifyWords (t : Str) : Str :=
  SIMPLE.foldl (fun acc kv => replaceWholeWordCI kv.1 (simpleReplace kv.2) acc) t

/-- `swapPhrases` from the source. -/
def swapPhrases (t : Str) : Str :=
  PHRASE_SWAPS.foldl (fun acc pr => replacePhraseCI pr.1 pr.2 acc) t

/-- One opener's `t.replace(new RegExp("^\\s*" + p + "\\s*,?\\s*", "i"), "")`:
strip optional whitespace, the phrase (case-insensitively, with NO trailing
word boundary), optional whitespace, an optional comma and optional
whitespace — at the start of the string only. -/
def stripOneOpener (p : Str) (t : Str) : Str :=
  let s1 := t.dropWhile isJsSpace
  if startsWithCI p s1 then
    let s2 := (s1.drop p.length).dropWhile isJsSpace
    match s2 with
    | ',' :: r => r.dropWhile isJsSpace
    | _ => s2
  else t

/-- `stripStockOpeners` from the source (a fold over `STOCK_OPENERS`). -/
def stripStockOpeners (t : Str) : Str :=
  STOCK_OPENERS.foldl (fun acc p => stripOneOpener p acc) t

/-- Continuation class of the synonym token regex `[A-Za-z][A-Za-z'-]{1,}`. -/
def isSynCont (c : Char) : Bool := isAsciiLetter c || c = '\'' || c = '-'

/-- `isSafeToken` from the source. -/
def isSafeToken (w : Str) : Bool :=
  !(w.any (fun c => isDigitChar c || c = '/' || c = '@' || c = ':' || c = '_' ||
      c = '#' || c = '%')) &&
    !(match w with
      | c :: rest => isUpperAz c && rest ≠ [] && rest.all isLowerAz
      | [] => false) &&
    !(STOP.contains (lowerStr w))

def synLookup (w : Str) : Option (List Str) :=
  (SYN.find? (fun kv => kv.1 == w)).map Prod.snd

/-- The case rule of `applySynonyms`: ALL-CAPS → pick upper-cased;
first-letter-capital → pick capitalized; else → pick as-is. -/
def applyCasePattern (raw pick : Str) : Str :=
  if upperStr raw = raw then upperStr pick
  else if (raw.head?.map (fun c => c.toUpper == c)).getD false then titleStr pick
  else pick

/-- The replacement callback of `applySynonyms`; consumes a `chance` draw only
when the token has synonym options, and a `rand` draw only when the chance
succeeds (exactly as the source calls `Math.random()`). -/
def synReplace (creativity : ℚ) (g : ℕ → ℚ) (raw : Str) (i : ℕ) : Str × ℕ :=
  let prob := 0.72 + 0.25 * clamp01 creativity
  if !isSafeToken raw then (raw, i)
  else
    match synLookup (lowerStr raw) with
    | none => (raw, i)
    | some options =>
      if options.length = 0 then (raw, i)
      else if ¬(g i < clamp01 prob) then (raw, i + 1)
      else
        let k := (⌊g (i + 1) * (options.length : ℚ)⌋).toNat
        (applyCasePattern raw (options.getD k []), i + 2)

/-- The token scan of `applySynonyms`: `\b([A-Za-z][A-Za-z'-]{1,})\b` with
greedy run and trailing-boundary backtracking. -/
def synGo (creativity : ℚ) (g : ℕ → ℚ) : ℕ → Option Char → Str → ℕ → Str × ℕ
  | 0, _, _, i => ([], i)
  | _, _, [], i => ([], i)
  | fuel + 1, prev, c :: rest, i =>
    if (prev.map isWordChar).getD false = false ∧ isAsciiLetter c = true then
      let greedy := c :: rest.takeWhile isSynCont
      let kept := (btRev greedy.reverse (rest.dropWhile isSynCont).head?).reverse
      if 2 ≤ kept.length then
        let r := synReplace creativity g kept i
        let res := synGo creativity g fuel kept.getLast? ((c :: rest).drop kept.length) r.2
        (r.1 ++ res.1, res.2)
      else
        let res := synGo creativity g fuel (some c) rest i
        (c :: res.1, res.2)
    else
      let res := synGo creativity g fuel (some c) rest i
      (c :: res.1, res.2)

/-- `applySynonyms` from the source. -/
def applySynonyms (t : Str) (creativity : ℚ) (g : ℕ → ℚ) (i : ℕ) : Str × ℕ :=
  synGo creativity g t.length none t i

/-! ## Structural rewriter -/

/-- One alternative of the `dropFillerThat` pattern: the verb `v`
case-insensitively, then `\s+`, then `that` with a trailing word boundary.
Returns the verb as matched and the text after `that`. -/
def fillerTry (v : Str) (s : Str) : Option (Str × Str) :=
  if startsWithCI v s then
    let afterV := s.drop v.length
    let ws := afterV.takeWhile isJsSpace
    let afterWs := afterV.dropWhile isJsSpace
    if ws ≠ [] ∧ startsWithCI (str "that") afterWs ∧
        isBoundaryBetween ((afterWs.take 4).getLast?) ((afterWs.drop 4).head?) then
      some (s.take v.length, afterWs.drop 4)
    else none
  else none

/-- A match of `\b(say|…|noted)\s+that\b` starting at the head of `s`
(alternatives tried in regex order; the replacement keeps the verb only). -/
def fillerMatchAt (s : Str) : Option (Str × Str) :=
  FILLER_VERBS.findSome? (fun v => fillerTry v s)

def dfGo : ℕ → Option Char → Str → Str
  | 0, _, _ => []
  | _, _, [] => []
  | fuel + 1, prev, c :: rest =>
    if (prev.map isWordChar).getD false = false then
      match fillerMatchAt (c :: rest) with
      | some (verb, after) =>
        verb ++ dfGo fuel ((c :: rest).take ((c :: rest).length - after.length)).getLast? after
      | none => c :: dfGo fuel (some c) rest
    else c :: dfGo fuel (some c) rest

/-- `dropFillerThat` from the source: `intensity > 0 ? replace : text`. -/
def dropFillerThat (t : Str) (intensity : ℚ) : Str :=
  if 0 < intensity then dfGo t.length none t else t

def wdashChar (c : Char) : Bool := isWordChar c || c = '-'

/-- The greedy `(?:\s+[A-Z][\w-]*)*` agent continuation of `passiveToActive`. -/
def agentGo : ℕ → Str → Str → Str × Str
  | 0, acc, rest => (acc, rest)
  | fuel + 1, acc, rest =>
    let ws := rest.takeWhile isJsSpace
    let r2 := rest.dropWhile isJsSpace
    if ws = [] then (acc, rest)
    else
      match r2 with
      | c :: r3 =>
        if isUpperAz c then
          agentGo fuel (acc ++ ws ++ (c :: r3.takeWhile wdashChar)) (r3.dropWhile wdashChar)
        else (acc, rest)
      | [] => (acc, rest)

/-- A match of the (case-sensitive) passive pattern
`\b(was|were|is|are|been|being)\s+(\w+?ed)\s+by\s+([A-Z][\w-]*(?:\s+[A-Z][\w-]*)*)\b`
starting at the head of `s`.  The lazy `(\w+?ed)` followed by `\s+` forces the
group to be the entire maximal word run, which must end in `ed`; the trailing
`\b` backtracks over `-` characters of the agent.  Returns the replacement
`agent root` and the rest. -/
def ptaMatchAt (s : Str) : Option (Str × Str) :=
  BE_FORMS.findSome? (fun be =>
    if be.isPrefixOf s then
      let r1 := s.drop be.length
      let ws1 := r1.takeWhile isJsSpace
      let r2 := r1.dropWhile isJsSpace
      let w := r2.takeWhile isWordChar
      let r3 := r2.dropWhile isWordChar
      if ws1 ≠ [] ∧ 3 ≤ w.length ∧ (str "ed").isSuffixOf w then
        let ws2 := r3.takeWhile isJsSpace
        let r4 := r3.dropWhile isJsSpace
        if ws2 ≠ [] ∧ (str "by").isPrefixOf r4 then
          let r5 := r4.drop 2
          let ws3 := r5.takeWhile isJsSpace
          let r6 := r5.dropWhile isJsSpace
          if ws3 ≠ [] then
            match r6 with
            | c :: r7 =>
              if isUpperAz c then
                let ag := agentGo r7.length (c :: r7.takeWhile wdashChar) (r7.dropWhile wdashChar)
                let agentRev := ag.1.reverse
                let agent := (agentRev.dropWhile (· = '-')).reverse
                let rest := (agentRev.takeWhile (· = '-')).reverse ++ ag.2
                some (agent ++ [' '] ++ w.take (w.length - 2), rest)
              else none
            | [] => none
          else none
        else none
      else none
    else none)

def ptaGo : ℕ → Option Char → Str → Str
  | 0, _, _ => []
  | _, _, [] => []
  | fuel + 1, prev, c :: rest =>
    if (prev.map isWordChar).getD false = false then
      match ptaMatchAt (c :: rest) with
      | some (rep, after) =>
        rep ++ ptaGo fuel ((c :: rest).take ((c :: rest).length - after.length)).getLast? after
      | none => c :: ptaGo fuel (some c) rest
    else c :: ptaGo fuel (some c) rest

/-- `passiveToActive` from the source: `intensity <= 0` returns the text. -/
def passiveToActive (t : Str) (intensity : ℚ) : Str :=
  if intensity ≤ 0 then t else ptaGo t.length none t

/-- A match of `\bThere\s+(?:is|are)\s+([a-z][^.!?]*)/gi` at the head of `s`;
the callback titles the trimmed group (falling back to the match itself when
the trimmed group is empty, which cannot happen since it starts with a
letter). -/
def thereIsMatchAt (s : Str) : Option (Str × Str) :=
  if startsWithCI (str "there") s then
    let r1 := s.drop 5
    let ws1 := r1.takeWhile isJsSpace
    let r2 := r1.dropWhile isJsSpace
    if ws1 = [] then none
    else
      [str "is", str "are"].findSome? (fun alt =>
        if startsWithCI alt r2 then
          let r3 := r2.drop alt.length
          let ws2 := r3.takeWhile isJsSpace
          let r4 := r3.dropWhile isJsSpace
          if ws2 = [] then none
          else
            match r4 with
            | c :: r5 =>
              if isAsciiLetter c then
                let grp := c :: r5.takeWhile (fun d => !isTermPunct d)
                let rest := r5.dropWhile (fun d => !isTermPunct d)
                let gtrim := trimL grp
                some ((if gtrim ≠ [] then titleStr gtrim
                       else s.take (s.length - rest.length)), rest)
              else none
            | [] => none
        else none)
  else none

def tiGo : ℕ → Option Char → Str → Str
  | 0, _, _ => []
  | _, _, [] => []
  | fuel + 1, prev, c :: rest =>
    if (prev.map isWordChar).getD false = false then
      match thereIsMatchAt (c :: rest) with
      | some (rep, after) =>
        rep ++ tiGo fuel ((c :: rest).take ((c :: rest).length - after.length)).getLast? after
      | none => c :: tiGo fuel (some c) rest
    else c :: tiGo fuel (some c) rest

/-- `rewriteThereIs` from the source. -/
def rewriteThereIs (t : Str) : Str := tiGo t.length none t

/-- The tail `\s*(because|when|if|although)\s+([^,.!?]{3,})([.!?])` of the
clause-reorder pattern, matched right after a comma.  Returns
(conjunction as matched, clause, terminator, rest). -/
def rcTailMatch (s : Str) : Option (Str × Str × Char × Str) :=
  let r1 := s.dropWhile isJsSpace
  RC_CONJS.findSome? (fun conj =>
    if startsWithCI conj r1 then
      let r2 := r1.drop conj.length
      let ws2 := r2.takeWhile isJsSpace
      let r3 := r2.dropWhile isJsSpace
      if ws2 = [] then none
      else
        let clause := r3.takeWhile (fun c => !(c = ',' || isTermPunct c))
        let r4 := r3.dropWhile (fun c => !(c = ',' || isTermPunct c))
        if 3 ≤ clause.length then
          match r4 with
          | e :: r5 => if isTermPunct e then some (r1.take conj.length, clause, e, r5) else none
          | [] => none
        else none
    else none)

/-- The lazy `(.+?),` search of `reorderClauses`: extend the main clause one
character at a time (never across a newline, since `.` does not match `\n`),
trying the tail after each comma; the first comma with a matching tail wins. -/
def rcGoMain : ℕ → Str → Str → Option (Str × Str × Str × Char × Str)
  | 0, _, _ => none
  | fuel + 1, mainRev, s =>
    match s with
    | [] => none
    | c :: rest =>
      if c = '\n' then none
      else if c = ',' ∧ mainRev ≠ [] then
        match rcTailMatch rest with
        | some (conj, clause, endc, r) => some (mainRev.reverse, conj, clause, endc, r)
        | none => rcGoMain fuel (c :: mainRev) rest
      else rcGoMain fuel (c :: mainRev) rest

def rcGo : ℕ → Str → Str
  | 0, _ => []
  | _, [] => []
  | fuel + 1, c :: rest =>
    match rcGoMain (c :: rest).length [] (c :: rest) with
    | some (main, conj, clause, endc, after) =>
      let matched := (c :: rest).take ((c :: rest).length - after.length)
      let rep :=
        if (jsSplitWs clause).length < 3 then matched
        else titleStr (lowerStr conj) ++ [' '] ++ clause ++ [',', ' '] ++ trimL main ++ [endc]
      rep ++ rcGo fuel after
    | none => c :: rcGo fuel rest

/-- `reorderClauses` from the source (guarded by `creativity <= 0.35`). -/
def reorderClauses (t : Str) (creativity : ℚ) : Str :=
  if creativity ≤ 0.35 then t else rcGo t.length t

/-- A match of `\bthe\s+([a-z]+)\s+of\s+([a-z][a-z-]*)\b/gi` at the head of
`s`, with trailing-boundary backtracking over `-`.  Returns the replacement
`owner's noun` and the rest. -/
def otpMatchAt (s : Str) : Option (Str × Str) :=
  if startsWithCI (str "the") s then
    let r1 := s.drop 3
    let ws1 := r1.takeWhile isJsSpace
    let r2 := r1.dropWhile isJsSpace
    if ws1 = [] then none
    else
      let noun := r2.takeWhile isAsciiLetter
      let r3 := r2.dropWhile isAsciiLetter
      if noun = [] then none
      else
        let ws2 := r3.takeWhile isJsSpace
        let r4 := r3.dropWhile isJsSpace
        if ws2 = [] then none
        else if startsWithCI (str "of") r4 then
          let r5 := r4.drop 2
          let ws3 := r5.takeWhile isJsSpace
          let r6 := r5.dropWhile isJsSpace
          if ws3 = [] then none
          else
            match r6 with
            | c :: r7 =>
              if isAsciiLetter c then
                let own := c :: r7.takeWhile (fun d => isAsciiLetter d || d = '-')
                let r8 := r7.dropWhile (fun d => isAsciiLetter d || d = '-')
                let ownRev := own.reverse
                let owner := (ownRev.dropWhile (· = '-')).reverse
                let rest := (ownRev.takeWhile (· = '-')).reverse ++ r8
                if isBoundaryBetween owner.getLast? rest.head? then
                  some (owner ++ ['\'', 's', ' '] ++ noun, rest)
                else none
              else none
            | [] => none
        else none
  else none

def otpGo : ℕ → Option Char → Str → Str
  | 0, _, _ => []
  | _, _, [] => []
  | fuel + 1, prev, c :: rest =>
    if (prev.map isWordChar).getD false = false then
      match otpMatchAt (c :: rest) with
      | some (rep, after) =>
        rep ++ otpGo fuel ((c :: rest).take ((c :: rest).length - after.length)).getLast? after
      | none => c :: otpGo fuel (some c) rest
    else c :: otpGo fuel (some c) rest

/-- `ofToPossessive` from the source. -/
def ofToPossessive (t : Str) : Str := otpGo t.length none t

/-! ## Composition normalizer -/

/-- `replace(/, (which|who)\b/gi, " — $1")`. -/
def vpWhichGo : ℕ → Str → Str
  | 0, _ => []
  | _, [] => []
  | fuel + 1, c :: rest =>
    match [str ", which", str ", who"].findSome? (fun p =>
        if startsWithCI p (c :: rest) ∧
            isBoundaryBetween ((c :: rest).take p.length).getLast?
              ((c :: rest).drop p.length).head? then
          some p.length
        else none) with
    | some n =>
      (str " — ") ++ ((c :: rest).take n).drop 2 ++ vpWhichGo fuel ((c :: rest).drop n)
    | none => c :: vpWhichGo fuel rest

/-- `replace(/, and\b/gi, " and")` (the replacement is the literal ` and`). -/
def vpAndGo : ℕ → Str → Str
  | 0, _ => []
  | _, [] => []
  | fuel + 1, c :: rest =>
    if startsWithCI (str ", and") (c :: rest) ∧
        isBoundaryBetween ((c :: rest).take 5).getLast? ((c :: rest).drop 5).head? then
      str " and" ++ vpAndGo fuel ((c :: rest).drop 5)
    else c :: vpAndGo fuel rest

/-- `varyPunctuation` from the source: two independent `chance` draws. -/
def varyPunctuation (t : Str) (creativity : ℚ) (g : ℕ → ℚ) (i : ℕ) : Str × ℕ :=
  let t1 := if g i < clamp01 (0.25 + creativity * 0.4) then vpWhichGo t.length t else t
  let t2 := if g (i + 1) < clamp01 (0.2 + creativity * 0.3) then vpAndGo t1.length t1 else t1
  (t2, i + 2)

/-- `softenAbsolutes` from the source: one `chance` draw per hedge entry
(consumed whether or not the replace is applied). -/
def softenAbsolutes (t : Str) (creativity : ℚ) (g : ℕ → ℚ) (i : ℕ) : Str × ℕ :=
  HEDGES.foldl (fun acc kv =>
    if g acc.2 < clamp01 (0.7 * creativity + 0.2)
    then (replaceWholeWordCI kv.1 (fun _ => kv.2) acc.1, acc.2 + 1)
    else (acc.1, acc.2 + 1)) (t, i)

/-! ## `tidy` -/

def isTidyPunct (c : Char) : Bool :=
  c = '.' || c = ',' || c = '!' || c = '?' || c = ';' || c = ':'

/-- `replace(/\s+([.,!?;:])/g, "$1")`. -/
def t1Go : ℕ → Str → Str
  | 0, _ => []
  | _, [] => []
  | fuel + 1, c :: rest =>
    if isJsSpace c then
      let ws := (c :: rest).takeWhile isJsSpace
      let r := (c :: rest).dropWhile isJsSpace
      match r with
      | d :: r2 => if isTidyPunct d then d :: t1Go fuel r2 else ws ++ t1Go fuel r
      | [] => ws
    else c :: t1Go fuel rest

/-- `replace(/\s{2,}/g, " ")`: a run of two-or-more whitespace characters
becomes one space; a single whitespace character is kept as-is. -/
def t2Go : ℕ → Str → Str
  | 0, _ => []
  | _, [] => []
  | fuel + 1, c :: rest =>
    if isJsSpace c ∧ ((rest.head?.map isJsSpace).getD false) = true then
      ' ' :: t2Go fuel (rest.dropWhile isJsSpace)
    else c :: t2Go fuel rest

/-- The scan part of `replace(/(^|[.!?]\s+)([a-z])/g, upcase)` for positions
after the start: terminator, whitespace, then a lower-case letter. -/
def tcGo : ℕ → Str → Str
  | 0, _ => []
  | _, [] => []
  | fuel + 1, c :: rest =>
    if isTermPunct c then
      let ws := rest.takeWhile isJsSpace
      let r := rest.dropWhile isJsSpace
      if ws ≠ [] then
        match r with
        | d :: r2 =>
          if isLowerAz d then (c :: ws) ++ (d.toUpper :: tcGo fuel r2)
          else (c :: ws) ++ tcGo fuel r
        | [] => c :: ws
      else c :: tcGo fuel rest
    else c :: tcGo fuel rest

/-- The full re-capitalization pass (the `^` alternative handled first). -/
def tidyCapsPass (t : Str) : Str :=
  match t with
  | c :: rest => if isLowerAz c then c.toUpper :: tcGo rest.length rest else tcGo t.length t
  | [] => []

/-- `tidy` from the source: fix spacing before punctuation, collapse repeated
whitespace, re-capitalize sentence-initial letters, trim. -/
def tidy (t : Str) : Str :=
  trimL (tidyCapsPass (t2Go (t1Go t.length t).length (t1Go t.length t)))

/-- The split-point search `s.search(/,|\b(and|but|because|which|so|although|when|if)\b/i)`. -/
def scGo : ℕ → Option Char → Str → ℕ → Option ℕ
  | 0, _, _, _ => none
  | _, _, [], _ => none
  | fuel + 1, prev, c :: rest, idx =>
    if c = ',' then some idx
    else if (prev.map isWordChar).getD false = false ∧
        WEAVE_CONJS.any (fun w => startsWithCI w (c :: rest) ∧
          isBoundaryBetween ((c :: rest).take w.length).getLast?
            ((c :: rest).drop w.length).head?) then
      some idx
    else scGo fuel (some c) rest (idx + 1)

def searchCut (s : Str) : Option ℕ := scGo s.length none s 0

/-- `weaveLengths` from the source; `out` is kept reversed so that the merge
step can rewrite its last element. -/
def wlGo : List Str → List Str → List Str
  | out, [] => out.reverse
  | out, s :: rest =>
    let n := (jsSplitWs s).length
    if 28 < n then
      let cut := (searchCut s).getD (s.length / 2)
      wlGo (trimL (s.drop (cut + 1)) :: trimL (s.take (cut + 1)) :: out) rest
    else if n < 6 ∧ out ≠ [] then
      match out with
      | last :: prevOut => wlGo (tidy (last ++ [' '] ++ s) :: prevOut) rest
      | [] => wlGo (s :: out) rest
    else wlGo (s :: out) rest

def weaveLengths (ss : List Str) : List Str := wlGo [] ss

/-! ## Orchestrator -/

/-- `humanizeSentence` from the source: the fixed transform order, threading
the random stream. -/
def humanizeSentence (s : Str) (creativity : ℚ) (g : ℕ → ℚ) (i : ℕ) : Str × ℕ :=
  let t0 := stripStockOpeners s
  let t1 := swapPhrases t0
  let t2 := simplifyWords t1
  let r3 := applySynonyms t2 creativity g i
  let t4 := dropFillerThat r3.1 creativity
  let t5 := passiveToActive t4 creativity
  let t6 := if 0.4 < creativity then rewriteThereIs t5 else t5
  let t7 := reorderClauses t6 creativity
  let t8 := if g r3.2 < clamp01 (0.35 + creativity * 0.3) then ofToPossessive t7 else t7
  let r9 := varyPunctuation t8 creativity g (r3.2 + 1)
  let r10 := softenAbsolutes r9.1 creativity g r9.2
  (tidy r10.1, r10.2)

/-- Thread the random-stream index through a list of sentences. -/
def mapState (f : Str → ℕ → Str × ℕ) : List Str → ℕ → List Str × ℕ
  | [], i => ([], i)
  | s :: rest, i =>
    let r := f s i
    let rr := mapState f rest r.2
    (r.1 :: rr.1, rr.2)

/-- `rewriteParagraph` from the source. -/
def rewriteParagraph (p : Str) (creativity : ℚ) (g : ℕ → ℚ) (i : ℕ) : Str × ℕ :=
  if trimL p = [] then (p, i)
  else
    let ss := weaveLengths (splitSentences p)
    let r := mapState (fun s j => humanizeSentence s creativity g j) ss i
    (tidy (joinSentences r.1), r.2)

/-- `replace(/[\r\t]+/g, " ")`. -/
def crtGo : ℕ → Str → Str
  | 0, _ => []
  | _, [] => []
  | fuel + 1, c :: rest =>
    if c = '\r' ∨ c = '\t' then
      ' ' :: crtGo fuel (rest.dropWhile (fun d => d = '\r' || d = '\t'))
    else c :: crtGo fuel rest

/-- `replace(/\n[ \t]+/g, "\n")`. -/
def nliGo : ℕ → Str → Str
  | 0, _ => []
  | _, [] => []
  | fuel + 1, c :: rest =>
    if c = '\n' ∧ ((rest.head?.map (fun d => d = ' ' || d = '\t')).getD false) = true then
      '\n' :: nliGo fuel (rest.dropWhile (fun d => d = ' ' || d = '\t'))
    else c :: nliGo fuel rest

/-! ## The paragraph-separation safeguard regex

`/(([^.!?]|\([^)]*\))+[.!?])\s+(?=[^\n])/g` with replacement
`m => m.length > 220 ? m + "\n\n" : m + " "`. -/

/-- The unit alternatives `[^.!?]` (preferred) and `\([^)]*\)` at the head of
`s`, as consumable lengths in engine preference order. -/
def sgUnitOptions (s : Str) : List ℕ :=
  match s with
  | [] => []
  | c :: rest =>
    (if ¬ isTermPunct c then [1] else []) ++
      (if c = '(' ∧ (rest.dropWhile (· ≠ ')')).head? = some ')' then
        [(rest.takeWhile (· ≠ ')')).length + 2]
      else [])

/-- The pattern tail `[.!?]\s+(?=[^\n])`: terminator, greedy whitespace
(backtracking at end of string so that the lookahead still sees a
non-newline character), lookahead not consumed.  Returns the consumed
length. -/
def sgTail (s : Str) : Option ℕ :=
  match s with
  | [] => none
  | c :: rest =>
    if isTermPunct c then
      let w := rest.takeWhile isJsSpace
      let r := rest.dropWhile isJsSpace
      if w.length = 0 then none
      else
        match r with
        | _ :: _ => some (1 + w.length)
        | [] =>
          let k := (w.reverse.takeWhile (· = '\n')).length
          if k < w.length ∧ 1 ≤ w.length - 1 - k then some (1 + (w.length - 1 - k))
          else none
    else none

/-- Backtracking search for `((unit)+ tail)` from the head of `s`, in engine
order: greedy unit repetition, deepest continuation first. -/
def sgSearch : ℕ → Str → Option ℕ
  | 0, _ => none
  | fuel + 1, s =>
    (sgUnitOptions s).findSome? (fun u =>
      match sgSearch fuel (s.drop u) with
      | some n => some (u + n)
      | none => (sgTail (s.drop u)).map (fun n => u + n))

/-- The global scan of the safeguard replace. -/
def sgGo : ℕ → Str → Str
  | 0, _ => []
  | _, [] => []
  | fuel + 1, c :: rest =>
    match sgSearch (c :: rest).length (c :: rest) with
    | some n =>
      let m := (c :: rest).take n
      (if 220 < m.length then m ++ str "\n\n" else m ++ [' ']) ++ sgGo fuel ((c :: rest).drop n)
    | none => c :: sgGo fuel rest

def paragraphSafeguard (t : Str) : Str := sgGo t.length t

/-- `rewriteText` from the source: the full rewrite pipeline. -/
def rewriteText (text : Str) (creativity : ℚ) (g : ℕ → ℚ) : Str :=
  let t0 := capToWords (trimL text) 1000
  let t1 := nliGo (crtGo t0.length t0).length (crtGo t0.length t0)
  let r := mapState (fun p i => rewriteParagraph p creativity g i) (splitParagraphs t1) 0
  let out := joinParagraphs r.1
  tidy (paragraphSafeguard out)

/-- Alphabetic words joined by single spaces. -/
def joinTokens : List Str → Str
  | [] => []
  | [w] => w
  | w :: rest => w ++ ' ' :: joinTokens rest

/-- What follows the first token: nothing, or a space and the rest. -/
def tokTail : List Str → Str
  | [] => []
  | rest@(_ :: _) => ' ' :: joinTokens rest

/-- The claim's specification of the pass, on word tokens: delete each
`that` (case-insensitively) that immediately follows one of the filler
verbs, keeping the verb. -/
def removeFillerThat : List Str → List Str
  | [] => []
  | [w] => [w]
  | w :: w2 :: rest =>
    if lowerStr w ∈ FILLER_VERBS ∧ lowerStr w2 = str "that"
    then w :: removeFillerThat rest
    else w :: removeFillerThat (w2 :: rest)

/-- The scan as run by `dropFillerThat`: fuel is the length of the text. -/
def dfRun (prev : Option Char) (s : Str) : Str := dfGo s.length prev s

/-- Split a text back into its space-separated words (used to read the
possibly multi-word `SIMPLE` values as word tokens). -/
def splitSpGo (acc : Str) : Str → List Str
  | [] => [acc.reverse]
  | c :: rest =>
    if c = ' ' then acc.reverse :: splitSpGo [] rest else splitSpGo (c :: acc) rest

def splitSp (s : Str) : List Str := splitSpGo [] s

/-- One `SIMPLE` entry at the token level: a token matching the key
case-insensitively becomes the words of the replaced value, any other token
stays. -/
def specStepTok (kv : Str × Str) (w : Str) : List Str :=
  if lowerStr w = kv.1 then splitSp (simpleReplace kv.2 w) else [w]

def specStep (kv : Str × Str) (ws : List Str) : List Str :=
  ws.flatMap (specStepTok kv)

/-- The per-token replacement rule for the entry list `L`: the first entry
whose key the token matches case-insensitively replaces it. -/
def specSimpTokenL (L : List (Str × Str)) (w : Str) : Str :=
  match L.find? (fun kv => lowerStr w == kv.1) with
  | some kv => simpleReplace kv.2 w
  | none => w

/-- The claim's per-token rule (C5, amended): a token matching a
`SimplificationMap` key case-insensitively (whole word) is replaced by the
mapped value, with its first letter capitalized exactly when the token's
first character is an upper-case letter, and otherwise as-is; every other
token is unchanged. -/
def specSimpToken (w : Str) : Str :=
  match SIMPLE.find? (fun kv => lowerStr w == kv.1) with
  | some kv => if (w.head?.map isUpperAz).getD false then titleStr kv.2 else kv.2
  | none => w

/-- The whole-word replace as `replaceWholeWordCI` runs it: fuel is the
length of the text. -/
def rwwRun (key : Str) (repl : Str → Str) (prev : Option Char) (s : Str) : Str :=
  rwwGo key repl s.length prev s

/-! ## Theorems -/

/-- Helper for termination: `dropWhile` never lengthens a list. -/
theorem dropWhile_len_le (p : Char → Bool) (l : Str) :
    (l.dropWhile p).length ≤ l.length := by
  induction l with
  | nil => simp [List.dropWhile]
  | cons c cs ih =>
    simp only [List.dropWhile]
    cases p c
    · simp
    · simpa using le_trans ih (Nat.le_succ _)

/-! ## Claim C9: the scan is deterministic -/

/-- C9: `scan` is deterministic.  The ambient random stream is passed in
explicitly; `computeAIScan` never consults it (no feature-extraction or
aggregation step draws randomness), so two calls on the same text — whatever
the random state — give identical results. -/
theorem scan_deterministic (sqrtFn : ℚ → ℚ) (rnd₁ rnd₂ : ℕ → ℚ) (t : Str) :
    computeAIScan sqrtFn rnd₁ t = computeAIScan sqrtFn rnd₂ t := rfl

/-! ## Claim C7: score complementarity and range -/

/-- C7: for every text accepted by the scan, `aiScore + humanScore = 100`
and both integer scores lie within `[0, 100]`. -/
theorem scan_scores_complementary (sqrtFn : ℚ → ℚ) (rnd : ℕ → ℚ) (t : Str) :
    (computeAIScan sqrtFn rnd t).ai + (computeAIScan sqrtFn rnd t).human = 100 ∧
      0 ≤ (computeAIScan sqrtFn rnd t).ai ∧ (computeAIScan sqrtFn rnd t).ai ≤ 100 ∧
      0 ≤ (computeAIScan sqrtFn rnd t).human ∧ (computeAIScan sqrtFn rnd t).human ≤ 100 := by
  by_cases h : sentencesOf t = []
  · simp [computeAIScan, h]
  · simp only [computeAIScan, h, if_false]
    generalize jsRound _ = k
    omega

/-! ## Claim C8: degenerate (whitespace-only) input -/

theorem replaceCRLF_space {t : Str} (ht : ∀ c ∈ t, isJsSpace c = true) :
    ∀ c ∈ replaceCRLF t, isJsSpace c = true := by
  induction t using replaceCRLF.induct with
  | case1 => simp [replaceCRLF]
  | case2 rest ih =>
    intro c hc
    simp only [replaceCRLF, List.mem_cons] at hc
    rcases hc with rfl | hc
    · rfl
    · exact ih (fun d hd => ht d (by simp [hd])) c hc
  | case3 c rest h1 ih =>
    intro d hd
    simp only [replaceCRLF, List.mem_cons] at hd
    rcases hd with rfl | hd
    · exact ht d (by simp)
    · exact ih (fun e he => ht e (by simp [he])) d hd

theorem spGo_space {t : Str} (sep : Bool) (acc : Str)
    (hacc : ∀ c ∈ acc, isJsSpace c = true) (ht : ∀ c ∈ t, isJsSpace c = true) :
    ∀ p ∈ spGo sep acc t, ∀ c ∈ p, isJsSpace c = true := by
  induction t generalizing sep acc with
  | nil =>
    intro p hp c hc
    simp only [spGo, List.mem_singleton] at hp
    subst hp
    exact hacc c (by simpa using hc)
  | cons d rest ih =>
    intro p hp c hc
    have hd : isJsSpace d = true := ht d (by simp)
    have hrest : ∀ c ∈ rest, isJsSpace c = true := fun e he => ht e (by simp [he])
    simp only [spGo] at hp
    split at hp
    · exact ih true acc hacc hrest p hp c hc
    · split at hp
      · rcases List.mem_cons.mp hp with rfl | hp'
        · exact hacc c (by simpa using hc)
        · exact ih true [] (by simp) hrest p hp' c hc
      · refine ih false (d :: acc) ?_ hrest p hp c hc
        intro e he
        rcases List.mem_cons.mp he with rfl | he'
        · exact hd
        · exact hacc e he'

theorem collapseWs_space {t : Str} (b : Bool) (ht : ∀ c ∈ t, isJsSpace c = true) :
    ∀ c ∈ collapseWs b t, isJsSpace c = true := by
  induction t generalizing b with
  | nil => simp [collapseWs]
  | cons d rest ih =>
    intro c hc
    have hd : isJsSpace d = true := ht d (by simp)
    have hrest : ∀ c ∈ rest, isJsSpace c = true := fun e he => ht e (by simp [he])
    simp only [collapseWs, hd, if_true] at hc
    split at hc
    · exact ih true hrest c hc
    · rcases List.mem_cons.mp hc with rfl | hc'
      · rfl
      · exact ih true hrest c hc'

theorem space_not_termPunct {c : Char} (h : isJsSpace c = true) : isTermPunct c = false := by
  simp only [isJsSpace, Bool.or_eq_true, decide_eq_true_eq] at h
  rcases h with (((((rfl | rfl) | rfl) | rfl) | rfl) | rfl) <;> rfl

theorem ssGo_no_punct {t : Str} (acc : Str) (ht : ∀ c ∈ t, isTermPunct c = false) :
    ssGo false acc [] t = [acc.reverse ++ t] := by
  induction t generalizing acc with
  | nil => simp [ssGo]
  | cons d rest ih =>
    have hd : isTermPunct d = false := ht d (by simp)
    have hrest : ∀ c ∈ rest, isTermPunct c = false := fun e he => ht e (by simp [he])
    simp [ssGo, hd, ih (d :: acc) hrest]

theorem trimL_space {t : Str} (ht : ∀ c ∈ t, isJsSpace c = true) : trimL t = [] := by
  have h1 : t.dropWhile isJsSpace = [] := List.dropWhile_eq_nil_iff.mpr ht
  simp [trimL, h1]

theorem splitSentences_space {p : Str} (hp : ∀ c ∈ p, isJsSpace c = true) :
    splitSentences p = [[]] := by
  have hcol : ∀ c ∈ collapseWs false p, isTermPunct c = false :=
    fun c hc => space_not_termPunct (collapseWs_space false hp c hc)
  have hcolsp : ∀ c ∈ collapseWs false p, isJsSpace c = true :=
    fun c hc => collapseWs_space false hp c hc
  have h1 : ssGo false [] [] (collapseWs false p) = [collapseWs false p] := by
    simpa using ssGo_no_punct [] hcol
  simp [splitSentences, h1, trimL_space hcolsp, trimL_space hp]

/-- C8: scanning an empty or whitespace-only text yields `aiScore = 0`,
`humanScore = 100`, an empty per-sentence cue list and threshold `0`. -/
theorem scan_whitespace_degenerate (sqrtFn : ℚ → ℚ) (rnd : ℕ → ℚ) (t : Str)
    (ht : ∀ c ∈ t, isJsSpace c = true) :
    computeAIScan sqrtFn rnd t = ⟨0, 100, [], 0⟩ := by
  have hsent : sentencesOf t = [] := by
    apply List.filter_eq_nil_iff.mpr
    intro s hs
    simp only [List.mem_flatten, List.mem_map] at hs
    obtain ⟨ss, ⟨para, hpara, rfl⟩, hs⟩ := hs
    have hparaSpace : ∀ c ∈ para, isJsSpace c = true := by
      have := spGo_space false [] (by simp) (replaceCRLF_space ht)
      exact fun c hc => this para hpara c hc
    rw [splitSentences_space hparaSpace] at hs
    simp only [List.mem_singleton] at hs
    subst hs
    simp
  simp [computeAIScan, hsent]

/-- C8 witness: the concrete whitespace-only text `"  \n "` (and with it the
empty text) satisfies the hypothesis and yields the degenerate result. -/
theorem scan_whitespace_degenerate_witness :
    (∀ c ∈ str "  \n ", isJsSpace c = true) ∧
      computeAIScan (fun _ => 0) (fun _ => 0) (str "  \n ") = ⟨0, 100, [], 0⟩ :=
  ⟨by decide, scan_whitespace_degenerate (fun _ => 0) (fun _ => 0) (str "  \n ") (by decide)⟩

/-! ## Claim C3: the per-sentence cue formula -/

theorem cueOf_eq_specCueAmended (s : Str) : cueOf (sentenceMetrics s) = specCueAmended s := by
  simp [cueOf, sentenceMetrics, specCueAmended, tokenCount, avgTokenLen, commaCount,
    hasStockOpener, List.length_flatten]

/-- C3 counterexample: for the one-sentence document `"one two three."`
(3 tokens, so `len < 9`), the scan reports cue strength `-11/10` (the code
zeroes the `len/25` term below 9 tokens), while the claimed formula
`max(0, len/25) + …` gives `-49/50 ≠ -11/10`. -/
theorem scan_cue_claim_false :
    (computeAIScan (fun _ => 0) (fun _ => 0) (str "one two three.")).perSentence
        = [(str "one two three.", -11/10)] ∧
      specCueClaim (str "one two three.") = -49/50 ∧ (-49/50 : ℚ) ≠ -11/10 :=
  ⟨by decide, by decide, by decide⟩

/-- C3 amended: every sentence's reported cue strength equals
`(len < 9 ? 0 : len/25) + (avgLen − 5.5) × 0.6 + (commas>2 ? 0.8 : 0) +
(opener ? 1.2 : 0)` — i.e. the `len/25` term is dropped (not merely clamped
to 0) for sentences of fewer than 9 tokens. -/
theorem scan_perSentence_cue (sqrtFn : ℚ → ℚ) (rnd : ℕ → ℚ) (t : Str) :
    (computeAIScan sqrtFn rnd t).perSentence
      = (sentencesOf t).map (fun s => (s, specCueAmended s)) := by
  by_cases h : sentencesOf t = []
  · simp [computeAIScan, h]
  · simp [computeAIScan, h, cueOf_eq_specCueAmended]

/-! ## Claim C4: the classification threshold -/

theorem insertSorted_length (x : ℚ) (l : List ℚ) :
    (insertSorted x l).length = l.length + 1 := by
  induction l with
  | nil => rfl
  | cons y ys ih =>
    simp only [insertSorted]
    split <;> simp [ih]

theorem sortAsc_length (l : List ℚ) : (sortAsc l).length = l.length := by
  induction l with
  | nil => rfl
  | cons x xs ih =>
    simp only [sortAsc, List.foldr] at ih ⊢
    rw [insertSorted_length, ih, List.length_cons]

/-- C4 counterexample: `"Hello world."` is a document with exactly one
sentence, yet the scan's threshold is that sentence's cue value `-3/10`,
not the claimed default `0.75` (the `|| 0.75` fallback in the source
triggers only when the selected cue value is falsy, i.e. `0`). -/
theorem scan_threshold_claim_false :
    (sentencesOf (str "Hello world.")).length = 1 ∧
      (computeAIScan (fun _ => 0) (fun _ => 0) (str "Hello world.")).threshold = -3/10 ∧
      (-3/10 : ℚ) ≠ 0.75 :=
  ⟨by decide, by decide, by decide⟩

/-- C4 amended: for every document with at least one sentence, the threshold
is the value at index `⌊0.6 · n⌋` of the ascending-sorted cue list, except
that a value of exactly `0` (falsy in JS) is replaced by the default `0.75`.
A one-sentence document therefore gets its sole cue value unless that value
is exactly `0`. -/
theorem scan_threshold_amended (sqrtFn : ℚ → ℚ) (rnd : ℕ → ℚ) (t : Str)
    (h : sentencesOf t ≠ []) :
    (computeAIScan sqrtFn rnd t).threshold
      = if percentile60 t = 0 then 0.75 else percentile60 t := by
  simp [computeAIScan, h, percentile60, cuesOf, List.map_map, Function.comp_def,
    sortAsc_length, List.length_map]

/-- C4 amended witness: on `"Hello world."` the hypothesis holds and the
threshold is the (nonzero) 60th-percentile cue value. -/
theorem scan_threshold_amended_witness :
    sentencesOf (str "Hello world.") ≠ [] ∧
      (computeAIScan (fun _ => 0) (fun _ => 0) (str "Hello world.")).threshold
        = if percentile60 (str "Hello world.") = 0 then 0.75
          else percentile60 (str "Hello world.") :=
  ⟨by decide,
    scan_threshold_amended (fun _ => 0) (fun _ => 0) (str "Hello world.") (by decide)⟩

theorem jsRound_clamp (q : ℚ) :
    max 0 (min 100 (jsRound q)) = jsRound (max 0 (min 100 q)) := by
  have e0 : jsRound 0 = 0 := by decide
  have e100 : jsRound 100 = 100 := by decide
  unfold jsRound at *
  rcases le_total q 0 with hq | hq
  · rw [min_eq_right (by linarith : q ≤ (100:ℚ)), max_eq_left hq]
    have h3 : ⌊q + 1/2⌋ ≤ ⌊(0:ℚ) + 1/2⌋ := Int.floor_le_floor (by linarith)
    omega
  · rcases le_total q 100 with hq2 | hq2
    · rw [min_eq_right hq2, max_eq_right hq]
      have h3 : ⌊(0:ℚ) + 1/2⌋ ≤ ⌊q + 1/2⌋ := Int.floor_le_floor (by linarith)
      have h4 : ⌊q + 1/2⌋ ≤ ⌊(100:ℚ) + 1/2⌋ := Int.floor_le_floor (by linarith)
      omega
    · rw [min_eq_left hq2, max_eq_right (by norm_num : (0:ℚ) ≤ 100)]
      have h3 : ⌊(100:ℚ) + 1/2⌋ ≤ ⌊q + 1/2⌋ := Int.floor_le_floor (by linarith)
      omega

/-- The opener term of the code, `min(1, openerCount / max(1, n/4))`, equals
the spec's `min(1, openerFraction × 4)` for every sentence count `n ≥ 1`. -/
theorem opener_term_eq (oc n : ℕ) (hn : 1 ≤ n) :
    min 1 ((oc : ℚ) / max 1 ((n : ℚ) / 4)) = min 1 ((oc : ℚ) / (n : ℚ) * 4) := by
  have hnpos : (0:ℚ) < (n : ℚ) := by exact_mod_cast hn
  rcases le_or_lt 4 n with h4 | h4
  · have h4q : (4:ℚ) ≤ (n : ℚ) := by exact_mod_cast h4
    rw [max_eq_right (by linarith : (1:ℚ) ≤ (n : ℚ) / 4)]
    congr 1
    field_simp
  · have h3 : n ≤ 3 := by omega
    have h3q : (n:ℚ) ≤ 3 := by exact_mod_cast h3
    rw [max_eq_left (by linarith : (n : ℚ) / 4 ≤ 1), div_one]
    rcases Nat.eq_zero_or_pos oc with rfl | hoc
    · simp
    · have h1 : (1:ℚ) ≤ (oc : ℚ) := by exact_mod_cast hoc
      have h2 : (1:ℚ) ≤ (oc : ℚ) / (n : ℚ) * 4 := by
        rw [div_mul_eq_mul_div, le_div_iff₀ hnpos]
        nlinarith
      rw [min_eq_left h1, min_eq_left h2]

/-- `max 0` is redundant around `a − min a c`. -/
theorem max0_sub_min (a c : ℚ) : max 0 (a - min a c) = a - min a c :=
  max_eq_right (sub_nonneg.mpr (min_le_left a c))

/-- C2: for every text with at least one sentence, the reported `aiScore`
equals the spec-§4.6 formula over the document aggregates (same square root),
clamped to `[0,100]` and rounded. -/
theorem scan_aiScore_formula (f : ℚ → ℚ) (rnd : ℕ → ℚ) (t : Str)
    (h : sentencesOf t ≠ []) :
    (computeAIScan f rnd t).ai = specAiScoreClaim f t := by
  have hn : 1 ≤ (sentencesOf t).length := List.length_pos.mpr h
  have hnq : (1:ℚ) ≤ ((sentencesOf t).length : ℚ) := by exact_mod_cast hn
  simp only [computeAIScan, h, if_false, specAiScoreClaim, specScoreClaim, covOf, docMean,
    docVariance, docLens, uniqAvgOf, avgWordLenOf, avgCommaOf, openerFractionOf,
    List.length_map]
  rw [jsRound_clamp, max_eq_right hnq, opener_term_eq _ _ hn, max0_sub_min, max0_sub_min]

/-- C2 witness: a concrete nonempty document on which the theorem applies. -/
theorem scan_aiScore_formula_witness :
    sentencesOf (str "Hi.") ≠ [] ∧
      (computeAIScan (fun _ => 0) (fun _ => 0) (str "Hi.")).ai
        = specAiScoreClaim (fun _ => 0) (str "Hi.") :=
  ⟨by decide, scan_aiScore_formula (fun _ => 0) (fun _ => 0) (str "Hi.") (by decide)⟩

/-! ## Claim C10: `capToWords` -/

theorem wmEndsGo_length :
    ∀ (fuel : ℕ) (l : Str) (p : ℕ), (wmEndsGo fuel l p).length = (wmGo fuel l).length := by
  intro fuel
  induction fuel with
  | zero => intro l p; cases l <;> rfl
  | succ fuel ih =>
    intro l p
    cases l with
    | nil => rfl
    | cons c cs =>
      simp only [wmEndsGo, wmGo]
      split <;> simp [ih]

/-- The number of `WORD_RE` match-end positions is the word count. -/
theorem wordMatchEnds_length (t : Str) : (wordMatchEnds t).length = wordCount t :=
  wmEndsGo_length t.length t 0

theorem capLoop_no_break :
    ∀ (es : List ℕ) (c le m : ℕ), c + es.length < m → (capLoop es c le m).1 = c + es.length := by
  intro es
  induction es with
  | nil => intro c le m _; rfl
  | cons e es ih =>
    intro c le m h
    simp only [List.length_cons] at h
    have hc : ¬(c + 1 ≥ m) := by omega
    simp only [capLoop, if_neg hc]
    rw [ih (c + 1) e m (by omega)]
    simp only [List.length_cons]
    omega

theorem capLoop_break :
    ∀ (es : List ℕ) (c le m : ℕ), c < m → m ≤ c + es.length →
      capLoop es c le m = (m, es.getD (m - c - 1) 0) := by
  intro es
  induction es with
  | nil => intro c le m h1 h2; simp at h2; omega
  | cons e es ih =>
    intro c le m h1 h2
    by_cases hc : c + 1 ≥ m
    · have : m = c + 1 := by omega
      subst this
      simp [capLoop]
    · simp only [capLoop, if_neg hc]
      rw [ih (c + 1) e m (by omega) (by simp only [List.length_cons] at h2; omega)]
      have : m - c - 1 = (m - (c + 1) - 1) + 1 := by omega
      rw [this]
      rfl

/-- C10: `capToWords(text, N)` (for a positive cap `N`, per the spec's
`wordCap > 0`) returns `text` unchanged when it has fewer than `N` word
tokens, and otherwise returns exactly the prefix of `text` ending at the last
character of the `N`-th word token — so a text of exactly `N` words loses its
trailing non-word characters, and a cut never lands inside a word. -/
theorem capToWords_spec (t : Str) (N : ℕ) (hN : 1 ≤ N) :
    (wordCount t < N → capToWords t N = t) ∧
      (N ≤ wordCount t → capToWords t N = t.take ((wordMatchEnds t).getD (N - 1) 0)) := by
  constructor
  · intro h
    by_cases ht : t = []
    · simp [capToWords, ht]
    · have hlen : (wordMatchEnds t).length = wordCount t := wordMatchEnds_length t
      have h1 : (capLoop (wordMatchEnds t) 0 0 N).1 = wordCount t := by
        rw [capLoop_no_break (wordMatchEnds t) 0 0 N (by omega)]
        omega
      simp only [capToWords, if_neg ht]
      rw [if_pos (by rw [h1]; exact h)]
  · intro h
    have hlen : (wordMatchEnds t).length = wordCount t := wordMatchEnds_length t
    have ht : t ≠ [] := by
      intro he
      subst he
      have : wordCount ([] : Str) = 0 := rfl
      omega
    have h1 : capLoop (wordMatchEnds t) 0 0 N = (N, (wordMatchEnds t).getD (N - 1) 0) := by
      have := capLoop_break (wordMatchEnds t) 0 0 N (by omega) (by omega)
      simpa using this
    simp only [capToWords, if_neg ht, h1]
    rw [if_neg (by omega)]

/-- C10 witness: `"one two three."` with cap 2 keeps exactly the prefix
`"one two"` that ends at the second word. -/
theorem capToWords_spec_witness :
    1 ≤ 2 ∧
      ((wordCount (str "one two three.") < 2 → capToWords (str "one two three.") 2 = str "one two three.") ∧
        (2 ≤ wordCount (str "one two three.") →
          capToWords (str "one two three.") 2
            = (str "one two three.").take ((wordMatchEnds (str "one two three.")).getD 1 0))) :=
  ⟨by decide, capToWords_spec (str "one two three.") 2 (by decide)⟩

/-! ## Claim C5: case preservation in `simplifyWords` -/

/-- C5 counterexample: the ALL-CAPS token `"NUMEROUS"` is mapped to
`"Many"`, not to the fully upper-cased `"MANY"` the claim requires — the
source inspects only the first character of the matched token. -/
theorem simplify_allcaps_claim_false :
    simplifyWords (str "NUMEROUS") = str "Many" ∧ str "Many" ≠ str "MANY" :=
  ⟨by decide, by decide⟩

/-! ## Claim C1: paragraph separation -/

theorem softenFold (l : List (Str × Str)) (creativity : ℚ) (g : ℕ → ℚ) (t : Str) (i : ℕ)
    (h : ∀ kv ∈ l, replaceWholeWordCI kv.1 (fun _ => kv.2) t = t) :
    l.foldl (fun acc kv =>
      if g acc.2 < clamp01 (0.7 * creativity + 0.2)
      then (replaceWholeWordCI kv.1 (fun _ => kv.2) acc.1, acc.2 + 1)
      else (acc.1, acc.2 + 1)) (t, i) = (t, i + l.length) := by
  induction l generalizing i with
  | nil => simp
  | cons kv rest ih =>
    simp only [List.foldl_cons]
    have h1 : (if g (t, i).2 < clamp01 (0.7 * creativity + 0.2)
        then (replaceWholeWordCI kv.1 (fun _ => kv.2) (t, i).1, (t, i).2 + 1)
        else ((t, i).1, (t, i).2 + 1)) = (t, i + 1) := by
      simp only [h kv (by simp), ite_self]
    rw [h1, ih (i + 1) (fun kv2 hkv2 => h kv2 (by simp [hkv2]))]
    simp only [List.length_cons]
    ring_nf

theorem varyPunctuation_noop (t : Str) (c : ℚ) (g : ℕ → ℚ) (i : ℕ)
    (h1 : vpWhichGo t.length t = t) (h2 : vpAndGo t.length t = t) :
    varyPunctuation t c g i = (t, i + 2) := by
  simp only [varyPunctuation, h1, h2, ite_self]

/-- At creativity 0, on a sentence left unchanged by every deterministic
transform (and by the synonym scan), `humanizeSentence` returns the tidied
sentence and consumes exactly the 10 unconditional `chance` draws, whatever
the random stream supplies. -/
theorem humanizeSentence_noop (s : Str) (g : ℕ → ℚ) (i : ℕ)
    (h0 : stripStockOpeners s = s) (h1 : swapPhrases s = s) (h2 : simplifyWords s = s)
    (h3 : applySynonyms s 0 g i = (s, i))
    (h4 : ofToPossessive s = s)
    (h5 : vpWhichGo s.length s = s) (h6 : vpAndGo s.length s = s)
    (h7 : ∀ kv ∈ HEDGES, replaceWholeWordCI kv.1 (fun _ => kv.2) s = s) :
    humanizeSentence s 0 g i = (tidy s, i + 10) := by
  simp only [humanizeSentence, h0, h1, h2, h3]
  rw [show dropFillerThat s 0 = s from if_neg (lt_irrefl (0 : ℚ))]
  rw [show passiveToActive s 0 = s from if_pos le_rfl]
  rw [if_neg (by norm_num : ¬((0.4 : ℚ) < 0))]
  rw [show reorderClauses s 0 = s from if_pos (by norm_num : (0 : ℚ) ≤ 0.35)]
  simp only [h4, ite_self]
  rw [varyPunctuation_noop s 0 g _ h5 h6]
  show (tidy (softenAbsolutes s 0 g (i + 1 + 2)).1, (softenAbsolutes s 0 g (i + 1 + 2)).2)
      = (tidy s, i + 10)
  rw [show softenAbsolutes s 0 g (i + 1 + 2) = (s, i + 1 + 2 + HEDGES.length) from
    softenFold HEDGES 0 g s (i + 1 + 2) h7]
  rw [show HEDGES.length = 7 from rfl]

theorem humanizeSentence_hi (g : ℕ → ℚ) (i : ℕ) :
    humanizeSentence (str "hi.") 0 g i = (str "Hi.", i + 10) := by
  rw [humanizeSentence_noop (str "hi.") g i (by decide) (by decide) (by decide) rfl
    (by decide) (by decide) (by decide) (by decide)]
  rw [show tidy (str "hi.") = str "Hi." from by decide]

theorem humanizeSentence_yo (g : ℕ → ℚ) (i : ℕ) :
    humanizeSentence (str "yo.") 0 g i = (str "Yo.", i + 10) := by
  rw [humanizeSentence_noop (str "yo.") g i (by decide) (by decide) (by decide) rfl
    (by decide) (by decide) (by decide) (by decide)]
  rw [show tidy (str "yo.") = str "Yo." from by decide]

theorem rewriteParagraph_hi (g : ℕ → ℚ) :
    rewriteParagraph (str "hi.") 0 g 0 = (str "Hi.", 10) := by
  unfold rewriteParagraph
  rw [if_neg (show ¬(trimL (str "hi.") = []) from by decide)]
  rw [show weaveLengths (splitSentences (str "hi.")) = [str "hi."] from by decide]
  simp only [mapState, humanizeSentence_hi g 0]
  rw [show tidy (joinSentences [str "Hi."]) = str "Hi." from by decide]

theorem rewriteParagraph_yo (g : ℕ → ℚ) :
    rewriteParagraph (str "yo.") 0 g 10 = (str "Yo.", 20) := by
  unfold rewriteParagraph
  rw [if_neg (show ¬(trimL (str "yo.") = []) from by decide)]
  rw [show weaveLengths (splitSentences (str "yo.")) = [str "yo."] from by decide]
  simp only [mapState, humanizeSentence_yo g 10]
  rw [show tidy (joinSentences [str "Yo."]) = str "Yo." from by decide]

/-- C1 (code bug): on the two-paragraph input `"hi.\n\nyo."` — whatever
`Math.random` yields — `rewrite` returns `"Hi. Yo."`: the final `tidy`
collapses every whitespace run of length ≥ 2, so the `"\n\n"` with which
`joinParagraphs` had joined the rewritten paragraphs (and any `"\n\n"` the
length safeguard inserts) is replaced by a single space, and the output
contains no newline at all.  This contradicts the claim (and the source's
own "Paragraphs are preserved." placeholder and "Ensure paragraph
separation" comment). -/
theorem rewrite_loses_paragraph_breaks (g : ℕ → ℚ) :
    (splitParagraphs (str "hi.\n\nyo.")).length = 2 ∧
      rewriteText (str "hi.\n\nyo.") 0 g = str "Hi. Yo." ∧
      (rewriteText (str "hi.\n\nyo.") 0 g).all (fun c => c ≠ '\n') = true := by
  have key : rewriteText (str "hi.\n\nyo.") 0 g = str "Hi. Yo." := by
    simp only [rewriteText]
    rw [show capToWords (trimL (str "hi.\n\nyo.")) 1000 = str "hi.\n\nyo." from by decide]
    rw [show nliGo (crtGo (str "hi.\n\nyo.").length (str "hi.\n\nyo.")).length
        (crtGo (str "hi.\n\nyo.").length (str "hi.\n\nyo.")) = str "hi.\n\nyo." from by decide]
    rw [show splitParagraphs (str "hi.\n\nyo.") = [str "hi.", str "yo."] from by decide]
    simp only [mapState, rewriteParagraph_hi g, rewriteParagraph_yo g]
    rw [show tidy (paragraphSafeguard (joinParagraphs [str "Hi.", str "Yo."]))
        = str "Hi. Yo." from by decide]
  exact ⟨by decide, key, by rw [key]; decide⟩

/-! ## Claim C6: filler-`that` removal

Counterexample (creativity 0 disables the pass), then a token-level
refinement: on sentences that are space-separated alphabetic words, the pass
deletes exactly the `that` tokens that immediately follow a filler verb. -/

/-- C6 counterexample: at creativity 0, `dropFillerThat` leaves the sentence
unchanged — the "that" after "think" is not deleted. -/
theorem fillerThat_skipped_at_zero_creativity :
    dropFillerThat (str "They think that it works.") 0 = str "They think that it works." ∧
      str "They think that it works." ≠ str "They think it works." :=
  ⟨by decide, by decide⟩

theorem joinTokens_cons (w : Str) (rest : List Str) :
    joinTokens (w :: rest) = w ++ tokTail rest := by
  cases rest <;> simp [joinTokens, tokTail]

theorem removeFillerThat_ne_nil {ws : List Str} (h : ws ≠ []) :
    removeFillerThat ws ≠ [] := by
  match ws with
  | [w] => simp [removeFillerThat]
  | w :: w2 :: rest =>
    simp only [removeFillerThat]
    split <;> simp

/-! ### Character-class lemmas -/

theorem toLower_of_lower {c : Char} (h : isLowerAz c = true) : c.toLower = c := by
  simp only [isLowerAz, Bool.and_eq_true, decide_eq_true_eq] at h
  obtain ⟨h1, h2⟩ := h
  have e1 : (97 : ℕ) ≤ c.toNat := h1
  unfold Char.toLower
  rw [if_neg]
  intro hcon
  omega

theorem toLower_of_alpha_lower {c : Char} (h : isAsciiLetter c = true) :
    isLowerAz c.toLower = true := by
  simp only [isAsciiLetter, Bool.or_eq_true] at h
  rcases h with h | h
  · rw [toLower_of_lower h]; exact h
  · simp only [isUpperAz, Bool.and_eq_true, decide_eq_true_eq] at h
    obtain ⟨h1, h2⟩ := h
    have e1 : (65 : ℕ) ≤ c.toNat := h1
    have e2 : c.toNat ≤ 90 := h2
    unfold Char.toLower
    rw [if_pos ⟨by omega, by omega⟩]
    have e3 : (Char.ofNat (c.toNat + 32)).toNat = c.toNat + 32 := by
      unfold Char.ofNat
      rw [dif_pos]
      · rfl
      · left; omega
    simp only [isLowerAz, Bool.and_eq_true, decide_eq_true_eq]
    refine ⟨?_, ?_⟩
    · exact (show (97 : ℕ) ≤ (Char.ofNat (c.toNat + 32)).toNat by omega)
    · exact (show (Char.ofNat (c.toNat + 32)).toNat ≤ 122 by omega)

theorem alpha_not_space {c : Char} (h : isAsciiLetter c = true) : isJsSpace c = false := by
  by_contra hcon
  have hsp : isJsSpace c = true := by
    cases hx : isJsSpace c
    · exact absurd hx hcon
    · rfl
  simp only [isJsSpace, Bool.or_eq_true, decide_eq_true_eq] at hsp
  rcases hsp with ((((rfl | rfl) | rfl) | rfl) | rfl) | rfl <;> simp_all [isAsciiLetter,
    isLowerAz, isUpperAz]

theorem alpha_word {c : Char} (h : isAsciiLetter c = true) : isWordChar c = true := by
  simp [isWordChar, h]

theorem lower_ne_space {c : Char} (h : isLowerAz c = true) : c ≠ ' ' := by
  intro rfl_eq
  subst rfl_eq
  simp [isLowerAz] at h

/-! ### `startsWithCI` lemmas -/

theorem startsWithCI_iff_lower (v : Str) :
    ∀ w : Str, (∀ c ∈ v, isLowerAz c = true) →
      (startsWithCI v w = true ↔ lowerStr (w.take v.length) = v) := by
  induction v with
  | nil => intro w _; simp [startsWithCI, lowerStr]
  | cons p ps ih =>
    intro w hv
    cases w with
    | nil => simp [startsWithCI, lowerStr]
    | cons c cs =>
      simp only [startsWithCI, Bool.and_eq_true, beq_iff_eq, List.take, lowerStr,
        List.map_cons, List.cons.injEq]
      rw [toLower_of_lower (hv p (by simp))]
      constructor
      · rintro ⟨h1, h2⟩
        exact ⟨h1.symm, (ih cs (fun c hc => hv c (by simp [hc]))).mp h2⟩
      · rintro ⟨h1, h2⟩
        exact ⟨h1.symm, (ih cs (fun c hc => hv c (by simp [hc]))).mpr h2⟩

theorem startsWithCI_append_of_le (v : Str) :
    ∀ (w t : Str), v.length ≤ w.length →
      startsWithCI v (w ++ t) = startsWithCI v w := by
  induction v with
  | nil => intro w t _; simp [startsWithCI]
  | cons p ps ih =>
    intro w t hlen
    cases w with
    | nil => simp at hlen
    | cons c cs =>
      simp only [List.cons_append, startsWithCI, List.append_eq]
      rw [ih cs t (by simpa using hlen)]

theorem startsWithCI_short (v : Str) :
    ∀ s : Str, s.length < v.length → startsWithCI v s = false := by
  induction v with
  | nil => intro s h; simp at h
  | cons p ps ih =>
    intro s h
    cases s with
    | nil => rfl
    | cons c cs =>
      simp only [startsWithCI, Bool.and_eq_false_iff]
      right
      exact ih cs (by simpa using h)

/-- A lower-case pattern cannot match across the separating space. -/
theorem startsWithCI_space_block (v : Str) :
    ∀ (w t : Str), (∀ c ∈ v, isLowerAz c = true) → w.length < v.length →
      startsWithCI v (w ++ ' ' :: t) = false := by
  induction v with
  | nil => intro w t _ h; simp at h
  | cons p ps ih =>
    intro w t hv hlen
    cases w with
    | nil =>
      simp only [List.nil_append, startsWithCI, Bool.and_eq_false_iff]
      left
      rw [toLower_of_lower (hv p (by simp))]
      have : p ≠ ' ' := lower_ne_space (hv p (by simp))
      simp only [beq_eq_false_iff_ne, ne_eq]
      intro hcon
      exact this (by rw [hcon]; rfl)
    | cons c cs =>
      simp only [List.cons_append, startsWithCI, Bool.and_eq_false_iff, List.append_eq]
      right
      exact ih cs t (fun d hd => hv d (by simp [hd])) (by simpa using hlen)

theorem lowerStr_length (w : Str) : (lowerStr w).length = w.length := by
  simp [lowerStr]

theorem startsWithCI_of_lower_eq {v w : Str} (hvl : ∀ c ∈ v, isLowerAz c = true)
    (h : lowerStr w = v) : startsWithCI v w = true := by
  have hlen : v.length = w.length := by rw [← h, lowerStr_length]
  rw [startsWithCI_iff_lower v w hvl, hlen, List.take_length, h]

/-- The word boundary after the 4 characters of a matched `that`. -/
theorem that_chars_lower : ∀ c ∈ str "that", isLowerAz c = true := by decide

/-- Characterization of one verb alternative on a token stream: it matches
exactly when the first token is the verb (case-insensitively) and the second
token is `that`. -/
theorem fillerTry_token (v w w2 : Str) (rest : List Str)
    (hvl : ∀ c ∈ v, isLowerAz c = true)
    (hw : w ≠ []) (hwa : ∀ c ∈ w, isAsciiLetter c = true)
    (hw2 : w2 ≠ []) (hw2a : ∀ c ∈ w2, isAsciiLetter c = true) :
    fillerTry v (w ++ ' ' :: joinTokens (w2 :: rest))
      = if lowerStr w = v ∧ lowerStr w2 = str "that" then some (w, tokTail rest)
        else none := by
  have hT : joinTokens (w2 :: rest) = w2 ++ tokTail rest := joinTokens_cons w2 rest
  obtain ⟨c2, w2', rfl⟩ : ∃ c2 w2', w2 = c2 :: w2' := by
    cases w2 with
    | nil => exact absurd rfl hw2
    | cons a b => exact ⟨a, b, rfl⟩
  have hc2 : isAsciiLetter c2 = true := hw2a c2 (by simp)
  have hTdef : joinTokens ((c2 :: w2') :: rest) = c2 :: (w2' ++ tokTail rest) := by
    rw [hT]; rfl
  rcases Nat.lt_or_ge w.length v.length with hlen | hlen
  · -- the pattern is longer than the first token: blocked by the space
    rw [fillerTry, if_neg]
    · rw [if_neg]
      rintro ⟨hlw, -⟩
      have : v.length = w.length := by rw [← hlw, lowerStr_length]
      omega
    · rw [startsWithCI_space_block v w _ hvl hlen]
      simp
  · by_cases hsw : startsWithCI v w = true
    · have hlow : lowerStr (w.take v.length) = v := (startsWithCI_iff_lower v w hvl).mp hsw
      rcases Nat.lt_or_ge v.length w.length with hvw | hvw
      · -- the verb is a proper prefix of the first token: no whitespace follows
        rw [fillerTry, if_pos]
        · have hdrop : (w ++ ' ' :: joinTokens ((c2 :: w2') :: rest)).drop v.length
              = w.drop v.length ++ ' ' :: joinTokens ((c2 :: w2') :: rest) :=
            List.drop_append_of_le_length (by omega)
          obtain ⟨d, rest', hd⟩ : ∃ d rest', w.drop v.length = d :: rest' := by
            cases hx : w.drop v.length with
            | nil =>
              have := congrArg List.length hx
              simp at this
              omega
            | cons a b => exact ⟨a, b, rfl⟩
          have hdal : isAsciiLetter d = true := by
            refine hwa d ?_
            have : d ∈ w.drop v.length := by rw [hd]; simp
            exact List.mem_of_mem_drop this
          have hws0 : List.takeWhile isJsSpace
              (d :: (rest' ++ ' ' :: joinTokens ((c2 :: w2') :: rest))) = [] := by
            rw [List.takeWhile_cons, if_neg (by simp [alpha_not_space hdal])]
          have hRHS : ¬(lowerStr w = v ∧ lowerStr (c2 :: w2') = str "that") := by
            rintro ⟨hlw, -⟩
            have : v.length = w.length := by rw [← hlw, lowerStr_length]
            omega
          simp only [hdrop, hd, List.cons_append, hws0, if_neg hRHS]
          rw [if_neg]
          simp
        · rw [startsWithCI_append_of_le v w _ (by omega)]
          exact hsw
      · -- the verb is exactly the first token (up to case)
        have hvwe : v.length = w.length := by omega
        have hlw : lowerStr w = v := by
          rw [← hlow, hvwe, List.take_length]
        rw [fillerTry, if_pos]
        · have hdrop : (w ++ ' ' :: joinTokens ((c2 :: w2') :: rest)).drop v.length
              = ' ' :: joinTokens ((c2 :: w2') :: rest) := by
            rw [hvwe]
            exact List.drop_left w _
          have htake : (w ++ ' ' :: joinTokens ((c2 :: w2') :: rest)).take v.length = w := by
            rw [hvwe]
            exact List.take_left w _
          rw [hdrop, htake]
          have hnc2 : isJsSpace c2 = false := alpha_not_space hc2
          have hws : (' ' :: joinTokens ((c2 :: w2') :: rest)).takeWhile isJsSpace
              = [' '] := by
            rw [hTdef, List.takeWhile_cons, if_pos (by decide), List.takeWhile_cons,
              if_neg (by simp [hnc2])]
          have hdw : (' ' :: joinTokens ((c2 :: w2') :: rest)).dropWhile isJsSpace
              = joinTokens ((c2 :: w2') :: rest) := by
            rw [List.dropWhile_cons, if_pos (by decide)]
            rw [hTdef, List.dropWhile_cons, if_neg (by simp [hnc2])]
          simp only [hws, hdw]
          by_cases hthat : lowerStr (c2 :: w2') = str "that"
          · have hw2len : (c2 :: w2').length = 4 := by
              have h := congrArg List.length hthat
              rw [lowerStr_length] at h
              exact h.trans (by decide)
            have hswt : startsWithCI (str "that") (joinTokens ((c2 :: w2') :: rest))
                = true := by
              rw [hT, startsWithCI_append_of_le _ _ _ (by rw [hw2len]; rfl)]
              exact startsWithCI_of_lower_eq that_chars_lower hthat
            have htk : (joinTokens ((c2 :: w2') :: rest)).take 4 = c2 :: w2' := by
              rw [hT, show (4 : ℕ) = (c2 :: w2').length from hw2len.symm]
              exact List.take_left _ _
            have hdr : (joinTokens ((c2 :: w2') :: rest)).drop 4 = tokTail rest := by
              rw [hT, show (4 : ℕ) = (c2 :: w2').length from hw2len.symm]
              exact List.drop_left _ _
            rw [if_pos, if_pos ⟨hlw, hthat⟩]
            · rw [hdr]
            · refine ⟨by simp, hswt, ?_⟩
              rw [htk, hdr]
              have hlast : (c2 :: w2').getLast? = some ((c2 :: w2').getLast (by simp)) :=
                List.getLast?_eq_getLast _ _
              have hlmem : (c2 :: w2').getLast (by simp) ∈ c2 :: w2' := List.getLast_mem _
              have hlal : isWordChar ((c2 :: w2').getLast (by simp)) = true :=
                alpha_word (hw2a _ hlmem)
              cases rest with
              | nil => simp [tokTail, isBoundaryBetween, hlast, hlal]
              | cons r rs =>
                have hsp : isWordChar ' ' = false := by decide
                simp [tokTail, isBoundaryBetween, hlast, hlal, hsp]
          · -- second token is not `that`
            rw [if_neg, if_neg]
            · rintro ⟨-, hcon⟩
              exact hthat hcon
            · rintro ⟨-, hswt, hbnd⟩
              rcases Nat.lt_or_ge (c2 :: w2').length 4 with h4 | h4
              · -- too short
                rw [hT] at hswt
                cases rest with
                | nil =>
                  rw [show tokTail ([] : List Str) = [] from rfl, List.append_nil] at hswt
                  rw [startsWithCI_short _ _ (by simpa using h4)] at hswt
                  exact Bool.false_ne_true hswt
                | cons r rs =>
                  rw [show tokTail (r :: rs) = ' ' :: joinTokens (r :: rs) from rfl] at hswt
                  rw [startsWithCI_space_block _ _ _ that_chars_lower
                    (by simpa using h4)] at hswt
                  exact Bool.false_ne_true hswt
              · rcases Nat.eq_or_lt_of_le h4 with h4e | h4l
                · -- length exactly 4 but different letters
                  have hlt : (str "that").length ≤ (c2 :: w2').length := by
                    have h4' : (str "that").length = 4 := by decide
                    omega
                  rw [hT, startsWithCI_append_of_le _ _ _ hlt] at hswt
                  have := (startsWithCI_iff_lower _ _ that_chars_lower).mp hswt
                  rw [show (str "that").length = 4 from rfl, h4e,
                    List.take_length] at this
                  exact hthat this
                · -- longer than 4: no boundary after the matched `that`
                  have htk : (joinTokens ((c2 :: w2') :: rest)).take 4
                      = (c2 :: w2').take 4 := by
                    rw [hT]
                    exact List.take_append_of_le_length (by omega)
                  have hdr : (joinTokens ((c2 :: w2') :: rest)).drop 4
                      = (c2 :: w2').drop 4 ++ tokTail rest := by
                    rw [hT]
                    exact List.drop_append_of_le_length (by omega)
                  obtain ⟨d, rest', hdeq⟩ : ∃ d rest', (c2 :: w2').drop 4 = d :: rest' := by
                    cases hx : (c2 :: w2').drop 4 with
                    | nil =>
                      have hlen4 := congrArg List.length hx
                      rw [List.length_drop, List.length_nil] at hlen4
                      omega
                    | cons a b => exact ⟨a, b, rfl⟩
                  have hdal : isWordChar d = true := by
                    have hmem : d ∈ (c2 :: w2').drop 4 := by rw [hdeq]; simp
                    exact alpha_word (hw2a d (List.mem_of_mem_drop hmem))
                  obtain ⟨e, rest'', heeq⟩ : ∃ e rest'', (c2 :: w2').take 4 = e :: rest'' := by
                    cases hx : (c2 :: w2').take 4 with
                    | nil =>
                      have hlen4 := congrArg List.length hx
                      rw [List.length_take, List.length_nil] at hlen4
                      omega
                    | cons a b => exact ⟨a, b, rfl⟩
                  have hlast : ∃ el, ((c2 :: w2').take 4).getLast? = some el ∧
                      el ∈ (c2 :: w2').take 4 := by
                    rw [heeq]
                    exact ⟨(e :: rest'').getLast (by simp),
                      List.getLast?_eq_getLast _ _, List.getLast_mem _⟩
                  obtain ⟨el, hel1, hel2⟩ := hlast
                  have helw : isWordChar el = true :=
                    alpha_word (hw2a el (List.mem_of_mem_take hel2))
                  rw [htk, hdr, hdeq, hel1] at hbnd
                  simp [isBoundaryBetween, helw, hdal] at hbnd
        · rw [startsWithCI_append_of_le v w _ (by omega)]
          exact hsw
    · -- the verb does not match the first token at all
      rw [fillerTry, if_neg, if_neg]
      · rintro ⟨hlw, -⟩
        exact hsw (startsWithCI_of_lower_eq hvl hlw)
      · rw [startsWithCI_append_of_le v w _ (by omega)]
        exact fun hcon => hsw hcon

theorem fillerVerbs_lower : ∀ v ∈ FILLER_VERBS, ∀ c ∈ v, isLowerAz c = true := by
  decide

/-- The whole alternation on a token stream: a match exactly when the first
token is a filler verb and the second token is `that`. -/
theorem fillerMatchAt_tokens (w w2 : Str) (rest : List Str)
    (hw : w ≠ []) (hwa : ∀ c ∈ w, isAsciiLetter c = true)
    (hw2 : w2 ≠ []) (hw2a : ∀ c ∈ w2, isAsciiLetter c = true) :
    fillerMatchAt (w ++ ' ' :: joinTokens (w2 :: rest))
      = if lowerStr w ∈ FILLER_VERBS ∧ lowerStr w2 = str "that"
        then some (w, tokTail rest) else none := by
  have key : ∀ L : List Str, (∀ v ∈ L, ∀ c ∈ v, isLowerAz c = true) →
      L.findSome? (fun v => fillerTry v (w ++ ' ' :: joinTokens (w2 :: rest)))
        = if lowerStr w ∈ L ∧ lowerStr w2 = str "that"
          then some (w, tokTail rest) else none := by
    intro L
    induction L with
    | nil =>
      intro _
      simp [List.findSome?]
    | cons v L ih =>
      intro hL
      have hv : ∀ c ∈ v, isLowerAz c = true := hL v (by simp)
      have hL' : ∀ v' ∈ L, ∀ c ∈ v', isLowerAz c = true :=
        fun v' hv' => hL v' (by simp [hv'])
      rw [List.findSome?]
      rw [fillerTry_token v w w2 rest hv hw hwa hw2 hw2a]
      by_cases hc : lowerStr w = v ∧ lowerStr w2 = str "that"
      · rw [if_pos hc]
        rw [if_pos ⟨by simp [hc.1], hc.2⟩]
      · rw [if_neg hc, ih hL']
        by_cases hthat : lowerStr w2 = str "that"
        · have hne : lowerStr w ≠ v := fun he => hc ⟨he, hthat⟩
          by_cases hmem : lowerStr w ∈ L
          · rw [if_pos ⟨hmem, hthat⟩, if_pos ⟨by simp [hmem], hthat⟩]
          · rw [if_neg (fun hcon => hmem hcon.1), if_neg]
            rintro ⟨hmem', -⟩
            rcases List.mem_cons.mp hmem' with he | hm
            · exact hne he
            · exact hmem hm
        · rw [if_neg (fun hcon => hthat hcon.2), if_neg (fun hcon => hthat hcon.2)]
  exact key FILLER_VERBS fillerVerbs_lower

/-- A lone all-letter token never starts a filler match: `\s+` cannot match. -/
theorem fillerTry_single (v w : Str) (hw : w ≠ [])
    (hwa : ∀ c ∈ w, isAsciiLetter c = true) :
    fillerTry v w = none := by
  rcases Nat.lt_or_ge w.length v.length with hlen | hlen
  · rw [fillerTry, if_neg]
    rw [startsWithCI_short v w hlen]
    simp
  · by_cases hsw : startsWithCI v w = true
    · rw [fillerTry, if_pos hsw, if_neg]
      rintro ⟨hws, -⟩
      apply hws
      rcases Nat.eq_or_lt_of_le hlen with he | hlt
      · rw [he, List.drop_length]
        rfl
      · obtain ⟨d, rest', hd⟩ : ∃ d rest', w.drop v.length = d :: rest' := by
          cases hx : w.drop v.length with
          | nil =>
            have hlen4 := congrArg List.length hx
            rw [List.length_drop, List.length_nil] at hlen4
            omega
          | cons a b => exact ⟨a, b, rfl⟩
        have hdal : isAsciiLetter d = true := by
          have hmem : d ∈ w.drop v.length := by rw [hd]; simp
          exact hwa d (List.mem_of_mem_drop hmem)
        rw [hd, List.takeWhile_cons, if_neg (by simp [alpha_not_space hdal])]
    · rw [fillerTry, if_neg hsw]

theorem fillerMatchAt_single (w : Str) (hw : w ≠ [])
    (hwa : ∀ c ∈ w, isAsciiLetter c = true) :
    fillerMatchAt w = none := by
  rw [fillerMatchAt]
  have : ∀ L : List Str,
      L.findSome? (fun v => fillerTry v w) = none := by
    intro L
    induction L with
    | nil => rfl
    | cons v L ih =>
      rw [List.findSome?, fillerTry_single v w hw hwa]
      exact ih
  exact this FILLER_VERBS

/-- Any filler match strictly shrinks the text: at least the whitespace run
is consumed. -/
theorem fillerMatch_shrink {s verb after : Str}
    (h : fillerMatchAt s = some (verb, after)) : after.length < s.length := by
  obtain ⟨v, -, hv⟩ := List.exists_of_findSome?_eq_some h
  rw [fillerTry] at hv
  by_cases hsw : startsWithCI v s = true
  · rw [if_pos hsw] at hv
    by_cases hcond : (s.drop v.length).takeWhile isJsSpace ≠ [] ∧
        startsWithCI (str "that") ((s.drop v.length).dropWhile isJsSpace) = true ∧
        isBoundaryBetween
          ((((s.drop v.length).dropWhile isJsSpace).take 4).getLast?)
          ((((s.drop v.length).dropWhile isJsSpace).drop 4).head?) = true
    · rw [if_pos hcond] at hv
      obtain ⟨hws, -, -⟩ := hcond
      have heq : after = ((s.drop v.length).dropWhile isJsSpace).drop 4 := by
        have h2 := Option.some.inj hv
        have h3 := congrArg Prod.snd h2
        simpa using h3.symm
      have hsplit : ((s.drop v.length).takeWhile isJsSpace).length
          + ((s.drop v.length).dropWhile isJsSpace).length
          = (s.drop v.length).length := by
        conv_rhs => rw [← List.takeWhile_append_dropWhile
          (p := isJsSpace) (l := s.drop v.length)]
        rw [List.length_append]
      have hwsp : 0 < ((s.drop v.length).takeWhile isJsSpace).length := by
        cases hx : (s.drop v.length).takeWhile isJsSpace with
        | nil => exact absurd hx hws
        | cons a b => simp [hx]
      have hdl : (s.drop v.length).length ≤ s.length := by
        rw [List.length_drop]; omega
      have hafter : after.length ≤ ((s.drop v.length).dropWhile isJsSpace).length := by
        rw [heq, List.length_drop]; omega
      omega
    · rw [if_neg hcond] at hv
      exact absurd hv (by simp)
  · rw [if_neg hsw] at hv
    exact absurd hv (by simp)

/-! ### Step equations and fuel irrelevance for the filler-that scanner -/

theorem dfGo_word (fuel : ℕ) (prev : Option Char) (c : Char) (rest : Str)
    (h : (prev.map isWordChar).getD false = true) :
    dfGo (fuel + 1) prev (c :: rest) = c :: dfGo fuel (some c) rest := by
  rw [dfGo, if_neg (by simp [h])]

theorem dfGo_nomatch (fuel : ℕ) (prev : Option Char) (c : Char) (rest : Str)
    (h : (prev.map isWordChar).getD false = false)
    (hm : fillerMatchAt (c :: rest) = none) :
    dfGo (fuel + 1) prev (c :: rest) = c :: dfGo fuel (some c) rest := by
  rw [dfGo, if_pos h, hm]

theorem dfGo_match (fuel : ℕ) (prev : Option Char) (c : Char) (rest : Str)
    (verb after : Str)
    (h : (prev.map isWordChar).getD false = false)
    (hm : fillerMatchAt (c :: rest) = some (verb, after)) :
    dfGo (fuel + 1) prev (c :: rest)
      = verb ++ dfGo fuel
          (((c :: rest).take ((c :: rest).length - after.length)).getLast?) after := by
  rw [dfGo, if_pos h, hm]

/-- Any fuel at least the length of the text gives the same scan. -/
theorem dfGo_fuel : ∀ n s, s.length ≤ n → ∀ prev fuel, s.length ≤ fuel →
    dfGo fuel prev s = dfGo s.length prev s := by
  intro n
  induction n with
  | zero =>
    intro s hs prev fuel hf
    have hnil : s = [] := List.length_eq_zero.mp (Nat.le_zero.mp hs)
    subst hnil
    cases fuel <;> rfl
  | succ n ih =>
    intro s hs prev fuel hf
    cases s with
    | nil => cases fuel <;> rfl
    | cons c rest =>
      simp only [List.length_cons] at hs hf
      obtain ⟨f, rfl⟩ : ∃ f, fuel = f + 1 := by
        cases fuel with
        | zero => omega
        | succ f => exact ⟨f, rfl⟩
      have hrlen : (c :: rest).length = rest.length + 1 := rfl
      by_cases hprev : (prev.map isWordChar).getD false = false
      · cases hm : fillerMatchAt (c :: rest) with
        | none =>
          rw [dfGo_nomatch f prev c rest hprev hm, hrlen,
            dfGo_nomatch rest.length prev c rest hprev hm,
            ih rest (by omega) (some c) f (by omega)]
        | some p =>
          obtain ⟨verb, after⟩ := p
          have hshrink := fillerMatch_shrink hm
          simp only [List.length_cons] at hshrink
          rw [dfGo_match f prev c rest verb after hprev hm, hrlen,
            dfGo_match rest.length prev c rest verb after hprev hm,
            ih after (by omega) _ f (by omega),
            ih after (by omega) _ rest.length (by omega)]
          simp only [List.length_cons]
      · have hprev' : (prev.map isWordChar).getD false = true := by
          cases hx : (prev.map isWordChar).getD false with
          | false => exact absurd hx hprev
          | true => rfl
        rw [dfGo_word f prev c rest hprev', hrlen,
          dfGo_word rest.length prev c rest hprev',
          ih rest (by omega) (some c) f (by omega)]

theorem dfRun_nil (prev : Option Char) : dfRun prev [] = [] := rfl

theorem dfRun_word (prev : Option Char) (c : Char) (rest : Str)
    (h : (prev.map isWordChar).getD false = true) :
    dfRun prev (c :: rest) = c :: dfRun (some c) rest := by
  rw [dfRun, show (c :: rest).length = rest.length + 1 from rfl,
    dfGo_word rest.length prev c rest h]
  rfl

theorem dfRun_nomatch (prev : Option Char) (c : Char) (rest : Str)
    (h : (prev.map isWordChar).getD false = false)
    (hm : fillerMatchAt (c :: rest) = none) :
    dfRun prev (c :: rest) = c :: dfRun (some c) rest := by
  rw [dfRun, show (c :: rest).length = rest.length + 1 from rfl,
    dfGo_nomatch rest.length prev c rest h hm]
  rfl

theorem dfRun_match (prev : Option Char) (c : Char) (rest : Str)
    (verb after : Str)
    (h : (prev.map isWordChar).getD false = false)
    (hm : fillerMatchAt (c :: rest) = some (verb, after)) :
    dfRun prev (c :: rest)
      = verb ++ dfRun
          (((c :: rest).take ((c :: rest).length - after.length)).getLast?) after := by
  have hshrink := fillerMatch_shrink hm
  simp only [List.length_cons] at hshrink
  rw [dfRun, show (c :: rest).length = rest.length + 1 from rfl,
    dfGo_match rest.length prev c rest verb after h hm, dfRun,
    dfGo_fuel after.length after (by omega) _ rest.length (by omega)]
  simp only [List.length_cons]

/-- Scanning walks through a word made of letters without changing it:
every previous character is a word character, so no match is attempted. -/
theorem dfRun_through_word : ∀ (w : Str), w ≠ [] →
    (∀ ch ∈ w, isAsciiLetter ch = true) →
    ∀ (a : Char), isWordChar a = true → ∀ (t : Str) (hne : w ≠ []),
    dfRun (some a) (w ++ t) = w ++ dfRun (some (w.getLast hne)) t := by
  intro w
  induction w with
  | nil => intro h; exact absurd rfl h
  | cons c w' ih =>
    intro _ hwa a ha t hne
    rw [List.cons_append, dfRun_word (some a) c (w' ++ t) (by simp [ha])]
    cases w' with
    | nil => rfl
    | cons c' w'' =>
      have hc : isWordChar c = true := alpha_word (hwa c (by simp))
      have hwa' : ∀ ch ∈ c' :: w'', isAsciiLetter ch = true :=
        fun ch hch => hwa ch (by simp [hch])
      rw [ih (by simp) hwa' c hc t (by simp)]
      rfl

/-- A token head where the alternation fails is copied unchanged. -/
theorem dfRun_token_nomatch (prev : Option Char)
    (hprev : (prev.map isWordChar).getD false = false)
    (w : Str) (hne : w ≠ []) (hwa : ∀ ch ∈ w, isAsciiLetter ch = true)
    (t : Str) (hm : fillerMatchAt (w ++ t) = none) :
    dfRun prev (w ++ t) = w ++ dfRun (some (w.getLast hne)) t := by
  cases w with
  | nil => exact absurd rfl hne
  | cons c w' =>
    rw [List.cons_append] at hm ⊢
    rw [dfRun_nomatch prev c (w' ++ t) hprev hm]
    cases w' with
    | nil => rfl
    | cons c' w'' =>
      have hc : isWordChar c = true := alpha_word (hwa c (by simp))
      have hwa' : ∀ ch ∈ c' :: w'', isAsciiLetter ch = true :=
        fun ch hch => hwa ch (by simp [hch])
      rw [dfRun_through_word (c' :: w'') (by simp) hwa' c hc t (by simp)]
      rfl

theorem tokTail_of_ne_nil {l : List Str} (h : l ≠ []) :
    tokTail l = ' ' :: joinTokens l := by
  cases l with
  | nil => exact absurd rfl h
  | cons a b => rfl

/-- The scanner on a stream of letter tokens implements exactly the
token-level deletion rule. -/
theorem dfRun_tokens : ∀ n (ws : List Str), ws.length ≤ n →
    (∀ w ∈ ws, w ≠ [] ∧ ∀ ch ∈ w, isAsciiLetter ch = true) →
    ∀ prev : Option Char, (prev.map isWordChar).getD false = false →
    dfRun prev (joinTokens ws) = joinTokens (removeFillerThat ws) := by
  intro n
  induction n with
  | zero =>
    intro ws hlen _ prev _
    have : ws = [] := List.length_eq_zero.mp (Nat.le_zero.mp hlen)
    subst this
    rfl
  | succ n ih =>
    intro ws hlen hws prev hprev
    match ws with
    | [] => rfl
    | [w] =>
      obtain ⟨hne, hwa⟩ := hws w (by simp)
      have hm : fillerMatchAt (w ++ ([] : Str)) = none := by
        rw [List.append_nil]
        exact fillerMatchAt_single w hne hwa
      have step := dfRun_token_nomatch prev hprev w hne hwa [] hm
      rw [List.append_nil] at step
      rw [show joinTokens [w] = w from rfl, step, dfRun_nil, List.append_nil]
      rfl
    | w :: w2 :: rest =>
      obtain ⟨hne, hwa⟩ := hws w (by simp)
      obtain ⟨hne2, hwa2⟩ := hws w2 (by simp)
      have hJ : joinTokens (w :: w2 :: rest) = w ++ ' ' :: joinTokens (w2 :: rest) :=
        rfl
      have hmtok := fillerMatchAt_tokens w w2 rest hne hwa hne2 hwa2
      simp only [List.length_cons] at hlen
      by_cases hcond : lowerStr w ∈ FILLER_VERBS ∧ lowerStr w2 = str "that"
      · -- the verb and the `that` are deleted together, keeping the verb text
        rw [if_pos hcond] at hmtok
        obtain ⟨c, w', rfl⟩ : ∃ c w', w = c :: w' := by
          cases w with
          | nil => exact absurd rfl hne
          | cons a b => exact ⟨a, b, rfl⟩
        have hm' : fillerMatchAt (c :: (w' ++ ' ' :: joinTokens (w2 :: rest)))
            = some (c :: w', tokTail rest) := hmtok
        have hstep := dfRun_match prev c (w' ++ ' ' :: joinTokens (w2 :: rest))
          (c :: w') (tokTail rest) hprev hm'
        rw [← List.cons_append, ← hJ] at hstep
        -- identify the previous-character state after the match
        have hassoc : joinTokens ((c :: w') :: w2 :: rest)
            = ((c :: w') ++ ' ' :: w2) ++ tokTail rest := by
          rw [hJ, joinTokens_cons w2 rest]
          simp
        have hlen2 : (joinTokens ((c :: w') :: w2 :: rest)).length
            - (tokTail rest).length = ((c :: w') ++ ' ' :: w2).length := by
          rw [hassoc, List.length_append]
          omega
        have htake : (joinTokens ((c :: w') :: w2 :: rest)).take
            ((joinTokens ((c :: w') :: w2 :: rest)).length - (tokTail rest).length)
            = (c :: w') ++ ' ' :: w2 := by
          rw [hlen2, hassoc]
          exact List.take_left _ _
        have hpm : ((joinTokens ((c :: w') :: w2 :: rest)).take
            ((joinTokens ((c :: w') :: w2 :: rest)).length
              - (tokTail rest).length)).getLast?
            = some (w2.getLast hne2) := by
          rw [htake, List.getLast?_append_of_ne_nil _ (by simp),
            show ' ' :: w2 = [' '] ++ w2 from rfl,
            List.getLast?_append_of_ne_nil _ hne2]
          exact List.getLast?_eq_getLast _ _
        have hwlast : isWordChar (w2.getLast hne2) = true :=
          alpha_word (hwa2 _ (List.getLast_mem hne2))
        rw [hstep, hpm]
        have hrft : removeFillerThat ((c :: w') :: w2 :: rest)
            = (c :: w') :: removeFillerThat rest := by
          rw [removeFillerThat, if_pos hcond]
        rw [hrft]
        cases rest with
        | nil =>
          rw [show tokTail ([] : List Str) = [] from rfl, dfRun_nil, List.append_nil]
          rfl
        | cons r rs =>
          rw [tokTail_of_ne_nil (by simp : r :: rs ≠ ([] : List Str))]
          rw [dfRun_word _ ' ' _ (by simp [hwlast])]
          have hrec := ih (r :: rs) (by simp at hlen ⊢; omega)
            (fun x hx => hws x (by simp [hx]))
            (some ' ') (by decide)
          rw [hrec]
          have hrne : removeFillerThat (r :: rs) ≠ [] :=
            removeFillerThat_ne_nil (by simp)
          rw [joinTokens_cons, tokTail_of_ne_nil hrne]
      · -- no deletion here: the first token is copied and scanning resumes at
        -- the second token
        rw [if_neg hcond] at hmtok
        have hstep := dfRun_token_nomatch prev hprev w hne hwa
          (' ' :: joinTokens (w2 :: rest)) hmtok
        rw [← hJ] at hstep
        have hwlast : isWordChar (w.getLast hne) = true :=
          alpha_word (hwa _ (List.getLast_mem hne))
        rw [hstep, dfRun_word _ ' ' _ (by simp [hwlast])]
        have hrec := ih (w2 :: rest) (by simp at hlen ⊢; omega)
          (fun x hx => hws x (by simp [hx]))
          (some ' ') (by decide)
        rw [hrec]
        have hrne : removeFillerThat (w2 :: rest) ≠ [] :=
          removeFillerThat_ne_nil (by simp)
        have hrft : removeFillerThat (w :: w2 :: rest)
            = w :: removeFillerThat (w2 :: rest) := by
          rw [removeFillerThat, if_neg hcond]
        rw [hrft, joinTokens_cons, tokTail_of_ne_nil hrne]

/-- C6 (amended): for every positive creativity value, the filler-`that`
pass deletes the word `that` exactly where it immediately follows one of the
fixed cognition/reporting verbs (case-insensitively), keeping the verb
unchanged — stated on any whitespace-joined stream of letter tokens.  At
creativity 0 the pass is skipped entirely (the original claim's "including
creativity = 0" fails, see the counterexample). -/
theorem dropFillerThat_tokens (q : ℚ) (hq : 0 < q) (ws : List Str)
    (hws : ∀ w ∈ ws, w ≠ [] ∧ ∀ ch ∈ w, isAsciiLetter ch = true) :
    dropFillerThat (joinTokens ws) q = joinTokens (removeFillerThat ws) := by
  rw [dropFillerThat, if_pos hq]
  exact dfRun_tokens ws.length ws le_rfl hws none rfl

theorem dropFillerThat_tokens_witness :
    (0 : ℚ) < 1/2 ∧
      dropFillerThat
        (joinTokens [str "They", str "think", str "that", str "it", str "works"])
        (1/2)
      = joinTokens (removeFillerThat
          [str "They", str "think", str "that", str "it", str "works"]) :=
  ⟨by norm_num,
   dropFillerThat_tokens (1/2) (by norm_num)
     [str "They", str "think", str "that", str "it", str "works"] (by decide)⟩

/-! ### Step equations and fuel irrelevance for the whole-word replacer -/

theorem rwwGo_hit (key : Str) (repl : Str → Str) (fuel : ℕ) (prev : Option Char)
    (c : Char) (rest : Str)
    (h : key ≠ [] ∧ startsWithCI key (c :: rest) = true ∧
        isBoundaryBetween prev (some c) = true ∧
        isBoundaryBetween ((c :: rest).take key.length).getLast?
          ((c :: rest).drop key.length).head? = true) :
    rwwGo key repl (fuel + 1) prev (c :: rest)
      = repl ((c :: rest).take key.length) ++
          rwwGo key repl fuel ((c :: rest).take key.length).getLast?
            ((c :: rest).drop key.length) := by
  rw [rwwGo, if_pos h]

theorem rwwGo_miss (key : Str) (repl : Str → Str) (fuel : ℕ) (prev : Option Char)
    (c : Char) (rest : Str)
    (h : ¬(key ≠ [] ∧ startsWithCI key (c :: rest) = true ∧
        isBoundaryBetween prev (some c) = true ∧
        isBoundaryBetween ((c :: rest).take key.length).getLast?
          ((c :: rest).drop key.length).head? = true)) :
    rwwGo key repl (fuel + 1) prev (c :: rest) = c :: rwwGo key repl fuel (some c) rest := by
  rw [rwwGo, if_neg h]

/-- Any fuel at least the length of the text gives the same replacement. -/
theorem rwwGo_fuel (key : Str) (hk : key ≠ []) (repl : Str → Str) :
    ∀ n s, s.length ≤ n → ∀ prev fuel, s.length ≤ fuel →
    rwwGo key repl fuel prev s = rwwGo key repl s.length prev s := by
  have hkpos : 0 < key.length := List.length_pos.mpr hk
  intro n
  induction n with
  | zero =>
    intro s hs prev fuel hf
    have hnil : s = [] := List.length_eq_zero.mp (Nat.le_zero.mp hs)
    subst hnil
    cases fuel <;> rfl
  | succ n ih =>
    intro s hs prev fuel hf
    cases s with
    | nil => cases fuel <;> rfl
    | cons c rest =>
      simp only [List.length_cons] at hs hf
      obtain ⟨f, rfl⟩ : ∃ f, fuel = f + 1 := by
        cases fuel with
        | zero => omega
        | succ f => exact ⟨f, rfl⟩
      have hrlen : (c :: rest).length = rest.length + 1 := rfl
      by_cases hcond : key ≠ [] ∧ startsWithCI key (c :: rest) = true ∧
          isBoundaryBetween prev (some c) = true ∧
          isBoundaryBetween ((c :: rest).take key.length).getLast?
            ((c :: rest).drop key.length).head? = true
      · have hdlen : ((c :: rest).drop key.length).length ≤ rest.length := by
          rw [List.length_drop]
          simp only [List.length_cons]
          omega
        rw [rwwGo_hit key repl f prev c rest hcond, hrlen,
          rwwGo_hit key repl rest.length prev c rest hcond,
          ih _ (by omega) _ f (by omega),
          ih _ (by omega) _ rest.length (by omega)]
      · rw [rwwGo_miss key repl f prev c rest hcond, hrlen,
          rwwGo_miss key repl rest.length prev c rest hcond,
          ih rest (by omega) (some c) f (by omega)]

theorem rwwRun_nil (key : Str) (repl : Str → Str) (prev : Option Char) :
    rwwRun key repl prev [] = [] := rfl

theorem rwwRun_hit (key : Str) (hk : key ≠ []) (repl : Str → Str) (prev : Option Char)
    (c : Char) (rest : Str)
    (h : startsWithCI key (c :: rest) = true ∧
        isBoundaryBetween prev (some c) = true ∧
        isBoundaryBetween ((c :: rest).take key.length).getLast?
          ((c :: rest).drop key.length).head? = true) :
    rwwRun key repl prev (c :: rest)
      = repl ((c :: rest).take key.length) ++
          rwwRun key repl ((c :: rest).take key.length).getLast?
            ((c :: rest).drop key.length) := by
  have hkpos : 0 < key.length := List.length_pos.mpr hk
  have hdlen : ((c :: rest).drop key.length).length ≤ rest.length := by
    rw [List.length_drop]
    simp only [List.length_cons]
    omega
  rw [rwwRun, show (c :: rest).length = rest.length + 1 from rfl,
    rwwGo_hit key repl rest.length prev c rest ⟨hk, h.1, h.2.1, h.2.2⟩, rwwRun,
    rwwGo_fuel key hk repl _ _ le_rfl _ rest.length (by omega)]

theorem rwwRun_miss (key : Str) (repl : Str → Str) (prev : Option Char)
    (c : Char) (rest : Str)
    (h : ¬(key ≠ [] ∧ startsWithCI key (c :: rest) = true ∧
        isBoundaryBetween prev (some c) = true ∧
        isBoundaryBetween ((c :: rest).take key.length).getLast?
          ((c :: rest).drop key.length).head? = true)) :
    rwwRun key repl prev (c :: rest) = c :: rwwRun key repl (some c) rest := by
  rw [rwwRun, show (c :: rest).length = rest.length + 1 from rfl,
    rwwGo_miss key repl rest.length prev c rest h]
  rfl

/-- No match is attempted between two word characters (no boundary). -/
theorem rwwRun_word (key : Str) (repl : Str → Str) (prev : Option Char)
    (c : Char) (rest : Str)
    (hprev : (prev.map isWordChar).getD false = true) (hc : isWordChar c = true) :
    rwwRun key repl prev (c :: rest) = c :: rwwRun key repl (some c) rest := by
  apply rwwRun_miss
  rintro ⟨-, -, hb, -⟩
  simp [isBoundaryBetween, hprev, hc] at hb

/-- A lower-case letter key never matches starting at a space. -/
theorem startsWithCI_head_space (k : Str) (hk : k ≠ [])
    (hkl : ∀ c ∈ k, isLowerAz c = true) (t : Str) :
    startsWithCI k (' ' :: t) = false := by
  have hkpos : 0 < k.length := List.length_pos.mpr hk
  have := startsWithCI_space_block k [] t hkl (by simpa using hkpos)
  simpa using this

theorem rwwRun_space (key : Str) (repl : Str → Str) (prev : Option Char) (rest : Str)
    (hsw : startsWithCI key (' ' :: rest) = false) :
    rwwRun key repl prev (' ' :: rest) = ' ' :: rwwRun key repl (some ' ') rest := by
  apply rwwRun_miss
  rintro ⟨-, hs, -, -⟩
  rw [hsw] at hs
  exact Bool.false_ne_true hs

/-- The replacer walks through a word made of letters without changing it. -/
theorem rwwRun_through_word (key : Str) (repl : Str → Str) : ∀ (w : Str), w ≠ [] →
    (∀ ch ∈ w, isAsciiLetter ch = true) →
    ∀ (a : Char), isWordChar a = true → ∀ (t : Str) (hne : w ≠ []),
    rwwRun key repl (some a) (w ++ t) = w ++ rwwRun key repl (some (w.getLast hne)) t := by
  intro w
  induction w with
  | nil => intro h; exact absurd rfl h
  | cons c w' ih =>
    intro _ hwa a ha t hne
    rw [List.cons_append,
      rwwRun_word key repl (some a) c (w' ++ t) (by simp [ha])
        (alpha_word (hwa c (by simp)))]
    cases w' with
    | nil => rfl
    | cons c' w'' =>
      have hc : isWordChar c = true := alpha_word (hwa c (by simp))
      have hwa' : ∀ ch ∈ c' :: w'', isAsciiLetter ch = true :=
        fun ch hch => hwa ch (by simp [hch])
      rw [ih (by simp) hwa' c hc t (by simp)]
      rfl

/-- A matching token: the whole-word conditions hold and the match covers
exactly the token. -/
theorem rww_token_hit (k w T : Str)
    (hkl : ∀ c ∈ k, isLowerAz c = true)
    (hw : w ≠ []) (hwa : ∀ ch ∈ w, isAsciiLetter ch = true)
    (hmatch : lowerStr w = k)
    (hT : T = [] ∨ ∃ J, T = ' ' :: J) :
    startsWithCI k (w ++ T) = true ∧
      (w ++ T).take k.length = w ∧ (w ++ T).drop k.length = T ∧
      isBoundaryBetween ((w ++ T).take k.length).getLast?
        ((w ++ T).drop k.length).head? = true := by
  have hlen : k.length = w.length := by rw [← hmatch, lowerStr_length]
  have htk : (w ++ T).take k.length = w := by
    rw [hlen]
    exact List.take_left _ _
  have hdr : (w ++ T).drop k.length = T := by
    rw [hlen]
    exact List.drop_left _ _
  refine ⟨?_, htk, hdr, ?_⟩
  · rw [startsWithCI_append_of_le k w T (by omega)]
    exact startsWithCI_of_lower_eq hkl hmatch
  · rw [htk, hdr]
    have hlast : w.getLast? = some (w.getLast hw) := List.getLast?_eq_getLast _ _
    have hlw : isWordChar (w.getLast hw) = true :=
      alpha_word (hwa _ (List.getLast_mem hw))
    rcases hT with rfl | ⟨J, rfl⟩
    · simp [isBoundaryBetween, hlast, hlw]
    · have hsp : isWordChar ' ' = false := by decide
      simp [isBoundaryBetween, hlast, hlw, hsp]

/-- A non-matching token: the whole-word conditions cannot all hold. -/
theorem rww_token_miss (k w T : Str) (hk : k ≠ [])
    (hkl : ∀ c ∈ k, isLowerAz c = true)
    (hw : w ≠ []) (hwa : ∀ ch ∈ w, isAsciiLetter ch = true)
    (hne : lowerStr w ≠ k)
    (hT : T = [] ∨ ∃ J, T = ' ' :: J) :
    ¬(startsWithCI k (w ++ T) = true ∧
      isBoundaryBetween ((w ++ T).take k.length).getLast?
        ((w ++ T).drop k.length).head? = true) := by
  rintro ⟨hsw, hbd⟩
  rcases Nat.lt_trichotomy k.length w.length with hlt | heq | hgt
  · -- proper prefix: both sides of the candidate boundary are letters
    have htk : (w ++ T).take k.length = w.take k.length :=
      List.take_append_of_le_length (by omega)
    have hdr : (w ++ T).drop k.length = w.drop k.length ++ T :=
      List.drop_append_of_le_length (by omega)
    obtain ⟨d, rest', hdeq⟩ : ∃ d rest', w.drop k.length = d :: rest' := by
      cases hx : w.drop k.length with
      | nil =>
        have hlen4 := congrArg List.length hx
        rw [List.length_drop, List.length_nil] at hlen4
        omega
      | cons a b => exact ⟨a, b, rfl⟩
    have hdal : isWordChar d = true := by
      have hmem : d ∈ w.drop k.length := by rw [hdeq]; simp
      exact alpha_word (hwa d (List.mem_of_mem_drop hmem))
    obtain ⟨e, rest'', heeq⟩ : ∃ e rest'', w.take k.length = e :: rest'' := by
      cases hx : w.take k.length with
      | nil =>
        have hlen4 := congrArg List.length hx
        rw [List.length_take, List.length_nil] at hlen4
        have hkpos : 0 < k.length := List.length_pos.mpr hk
        omega
      | cons a b => exact ⟨a, b, rfl⟩
    have hlast : ∃ el, (w.take k.length).getLast? = some el ∧ el ∈ w.take k.length := by
      rw [heeq]
      exact ⟨(e :: rest'').getLast (by simp),
        List.getLast?_eq_getLast _ _, List.getLast_mem _⟩
    obtain ⟨el, hel1, hel2⟩ := hlast
    have helw : isWordChar el = true :=
      alpha_word (hwa _ (List.mem_of_mem_take hel2))
    rw [htk, hdr, hdeq, hel1] at hbd
    simp [isBoundaryBetween, helw, hdal] at hbd
  · -- same length but different letters
    rw [startsWithCI_append_of_le k w T (by omega)] at hsw
    have := (startsWithCI_iff_lower k w hkl).mp hsw
    rw [heq, List.take_length] at this
    exact hne this
  · -- key longer than the token: blocked by the end or the space
    rcases hT with rfl | ⟨J, rfl⟩
    · rw [List.append_nil, startsWithCI_short k w hgt] at hsw
      exact Bool.false_ne_true hsw
    · rw [startsWithCI_space_block k w J hkl hgt] at hsw
      exact Bool.false_ne_true hsw

/-- `startsWithCI` forces the lower-cased prefix to agree, for any pattern. -/
theorem startsWithCI_lower_eq : ∀ (p s : Str), startsWithCI p s = true →
    lowerStr (s.take p.length) = lowerStr p := by
  intro p
  induction p with
  | nil => intro s _; rfl
  | cons a ps ih =>
    intro s h
    cases s with
    | nil => exact absurd h (by rw [startsWithCI]; simp)
    | cons c cs =>
      rw [startsWithCI, Bool.and_eq_true, beq_iff_eq] at h
      obtain ⟨h1, h2⟩ := h
      simp only [List.length_cons, List.take_succ_cons, lowerStr, List.map_cons,
        List.cons.injEq]
      exact ⟨h1.symm, ih cs h2⟩

/-- A key containing an underscore never matches letters-and-spaces text. -/
theorem startsWithCI_no_underscore (k : Str) (hk : '_' ∈ k) (s : Str)
    (hs : ∀ c ∈ s, isAsciiLetter c = true ∨ c = ' ') :
    startsWithCI k s = false := by
  cases hx : startsWithCI k s with
  | false => rfl
  | true =>
    exfalso
    have hlow := startsWithCI_lower_eq k s hx
    have h1 : '_' ∈ lowerStr k := List.mem_map.mpr ⟨'_', hk, by decide⟩
    rw [← hlow] at h1
    obtain ⟨c, hc1, hc2⟩ := List.mem_map.mp h1
    rcases hs c (List.mem_of_mem_take hc1) with hca | rfl
    · have := toLower_of_alpha_lower hca
      rw [hc2] at this
      exact absurd this (by decide)
    · exact absurd hc2 (by decide)

/-- Every character of a joined letter-token stream is a letter or a space. -/
theorem joinTokens_chars : ∀ ws : List Str,
    (∀ w ∈ ws, ∀ ch ∈ w, isAsciiLetter ch = true) →
    ∀ c ∈ joinTokens ws, isAsciiLetter c = true ∨ c = ' ' := by
  intro ws
  induction ws with
  | nil =>
    intro _ c hc
    simp [joinTokens] at hc
  | cons w rest ih =>
    intro h c hc
    rw [joinTokens_cons] at hc
    rcases List.mem_append.mp hc with hcw | hct
    · exact Or.inl (h w (by simp) c hcw)
    · cases rest with
      | nil => simp [tokTail] at hct
      | cons r rs =>
        rw [tokTail_of_ne_nil (by simp : r :: rs ≠ ([] : List Str))] at hct
        rcases List.mem_cons.mp hct with rfl | hct'
        · exact Or.inr rfl
        · exact ih (fun w' hw' => h w' (by simp [hw'])) c hct'

/-- A pass whose key contains an underscore leaves letters-and-spaces text
unchanged. -/
theorem rwwRun_underscore_ident (k : Str) (hk : '_' ∈ k) (repl : Str → Str) :
    ∀ s : Str, (∀ c ∈ s, isAsciiLetter c = true ∨ c = ' ') → ∀ prev,
    rwwRun k repl prev s = s := by
  intro s
  induction s with
  | nil => intro _ prev; rfl
  | cons c rest ih =>
    intro hs prev
    rw [rwwRun_miss k repl prev c rest]
    · rw [ih (fun d hd => hs d (by simp [hd])) (some c)]
    · rintro ⟨-, hsw, -, -⟩
      rw [startsWithCI_no_underscore k hk (c :: rest) hs] at hsw
      exact Bool.false_ne_true hsw

/-- A token head where the key does not match is copied unchanged. -/
theorem rwwRun_token_walk (k : Str) (hk : k ≠ []) (hkl : ∀ c ∈ k, isLowerAz c = true)
    (repl : Str → Str) (prev : Option Char)
    (w : Str) (hne : w ≠ []) (hwa : ∀ ch ∈ w, isAsciiLetter ch = true)
    (T : Str) (hT : T = [] ∨ ∃ J, T = ' ' :: J)
    (hm : lowerStr w ≠ k) :
    rwwRun k repl prev (w ++ T) = w ++ rwwRun k repl (some (w.getLast hne)) T := by
  cases w with
  | nil => exact absurd rfl hne
  | cons c w' =>
    rw [List.cons_append, rwwRun_miss k repl prev c (w' ++ T)
      (by
        rintro ⟨-, hsw, -, hbd⟩
        exact rww_token_miss k (c :: w') T hk hkl (by simp) hwa hm hT ⟨hsw, hbd⟩)]
    cases w' with
    | nil => rfl
    | cons c' w'' =>
      have hc : isWordChar c = true := alpha_word (hwa c (by simp))
      have hwa' : ∀ ch ∈ c' :: w'', isAsciiLetter ch = true :=
        fun ch hch => hwa ch (by simp [hch])
      rw [rwwRun_through_word k repl (c' :: w'') (by simp) hwa' c hc T (by simp)]
      rfl

/-- One whole-word replace pass on a stream of letter tokens: exactly the
tokens equal to the key up to case are replaced (by the callback applied to
the matched token), everything else is untouched. -/
theorem rwwRun_tokens (k : Str) (hk : k ≠ []) (hkl : ∀ c ∈ k, isLowerAz c = true)
    (repl : Str → Str) : ∀ ws : List Str,
    (∀ w ∈ ws, w ≠ [] ∧ ∀ ch ∈ w, isAsciiLetter ch = true) →
    ∀ prev : Option Char, (prev.map isWordChar).getD false = false →
    rwwRun k repl prev (joinTokens ws)
      = joinTokens (ws.map (fun w => if lowerStr w = k then repl w else w)) := by
  intro ws
  induction ws with
  | nil => intro _ prev _; rfl
  | cons w rest ih =>
    intro hws prev hprev
    obtain ⟨hne, hwa⟩ := hws w (by simp)
    have hT : tokTail rest = [] ∨ ∃ J, tokTail rest = ' ' :: J := by
      cases rest with
      | nil => exact Or.inl rfl
      | cons r rs => exact Or.inr ⟨joinTokens (r :: rs), rfl⟩
    rw [joinTokens_cons]
    by_cases hm : lowerStr w = k
    · obtain ⟨hsw, htk, hdr, hbd⟩ := rww_token_hit k w (tokTail rest) hkl hne hwa hm hT
      obtain ⟨c, w', rfl⟩ : ∃ c w', w = c :: w' := by
        cases w with
        | nil => exact absurd rfl hne
        | cons a b => exact ⟨a, b, rfl⟩
      show rwwRun k repl prev (c :: (w' ++ tokTail rest)) = _
      have hstk : (c :: (w' ++ tokTail rest)).take k.length = c :: w' := htk
      have hsdr : (c :: (w' ++ tokTail rest)).drop k.length = tokTail rest := hdr
      rw [rwwRun_hit k hk repl prev c (w' ++ tokTail rest)
        ⟨hsw, by simp [isBoundaryBetween, hprev, alpha_word (hwa c (by simp))], hbd⟩,
        hstk, hsdr]
      have hlw : isWordChar ((c :: w').getLast (by simp)) = true :=
        alpha_word (hwa _ (List.getLast_mem (by simp)))
      cases rest with
      | nil =>
        rw [show tokTail ([] : List Str) = [] from rfl, rwwRun_nil, List.append_nil,
          List.map_cons, List.map_nil, if_pos hm]
        rfl
      | cons r rs =>
        rw [tokTail_of_ne_nil (by simp : r :: rs ≠ ([] : List Str)),
          rwwRun_space k repl _ _ (startsWithCI_head_space k hk hkl _),
          ih (fun x hx => hws x (by simp [hx])) (some ' ') (by decide),
          List.map_cons _ (c :: w') (r :: rs), joinTokens_cons,
          tokTail_of_ne_nil (show List.map
            (fun x => if lowerStr x = k then repl x else x) (r :: rs) ≠ [] by simp),
          if_pos hm]
    · rw [rwwRun_token_walk k hk hkl repl prev w hne hwa (tokTail rest) hT hm]
      have hlw : isWordChar (w.getLast hne) = true :=
        alpha_word (hwa _ (List.getLast_mem hne))
      cases rest with
      | nil =>
        rw [show tokTail ([] : List Str) = [] from rfl, rwwRun_nil, List.append_nil,
          List.map_cons, List.map_nil, if_neg hm]
        rfl
      | cons r rs =>
        rw [tokTail_of_ne_nil (by simp : r :: rs ≠ ([] : List Str)),
          rwwRun_space k repl _ _ (startsWithCI_head_space k hk hkl _),
          ih (fun x hx => hws x (by simp [hx])) (some ' ') (by decide),
          List.map_cons _ w (r :: rs), joinTokens_cons,
          tokTail_of_ne_nil (show List.map
            (fun x => if lowerStr x = k then repl x else x) (r :: rs) ≠ [] by simp),
          if_neg hm]

/-! ### Joining glue -/

theorem joinTokens_append : ∀ (A B : List Str), A ≠ [] →
    joinTokens (A ++ B) = joinTokens A ++ tokTail B := by
  intro A
  induction A with
  | nil => intro B h; exact absurd rfl h
  | cons a A' ih =>
    intro B _
    cases A' with
    | nil =>
      rw [show ([a] : List Str) ++ B = a :: B from rfl, joinTokens_cons]
      rfl
    | cons a2 A'' =>
      rw [show (a :: a2 :: A'') ++ B = a :: ((a2 :: A'') ++ B) from rfl,
        joinTokens_cons, tokTail_of_ne_nil (show (a2 :: A'') ++ B ≠ [] by simp),
        ih B (by simp), joinTokens_cons a (a2 :: A''),
        tokTail_of_ne_nil (show a2 :: A'' ≠ ([] : List Str) by simp)]
      simp

/-- Joining a per-token expansion is joining the per-token strings. -/
theorem joinTokens_flatMap (f : Str → List Str) (g : Str → Str)
    (hfg : ∀ w, joinTokens (f w) = g w ∧ f w ≠ []) :
    ∀ ws : List Str, joinTokens (ws.flatMap f) = joinTokens (ws.map g) := by
  intro ws
  induction ws with
  | nil => rfl
  | cons w rest ih =>
    rw [List.flatMap_cons, List.map_cons, joinTokens_append (f w) _ (hfg w).2,
      (hfg w).1, joinTokens_cons]
    congr 1
    cases rest with
    | nil => rfl
    | cons r rs =>
      have h1 : (r :: rs).flatMap f ≠ [] := by
        rw [List.flatMap_cons]
        intro hcon
        cases hx : f r with
        | nil => exact (hfg r).2 hx
        | cons x xs =>
          rw [hx] at hcon
          simp at hcon
      rw [tokTail_of_ne_nil h1, tokTail_of_ne_nil (by simp), ih]

/-- For a letter, the source's case test `m[0] === m[0].toUpperCase()` holds
exactly when the letter is upper-case. -/
theorem toUpper_fixed_iff {c : Char} (h : isAsciiLetter c = true) :
    c.toUpper = c ↔ isUpperAz c = true := by
  simp only [isAsciiLetter, Bool.or_eq_true] at h
  rcases h with h | h
  · simp only [isLowerAz, Bool.and_eq_true, decide_eq_true_eq] at h
    obtain ⟨h1, h2⟩ := h
    have e1 : (97 : ℕ) ≤ c.toNat := h1
    have e2 : c.toNat ≤ 122 := h2
    constructor
    · intro hcon
      exfalso
      unfold Char.toUpper at hcon
      rw [if_pos ⟨by omega, by omega⟩] at hcon
      have e3 : (Char.ofNat (c.toNat - 32)).toNat = c.toNat - 32 := by
        unfold Char.ofNat
        rw [dif_pos]
        · rfl
        · left; omega
      have e4 := congrArg Char.toNat hcon
      rw [e3] at e4
      omega
    · intro hcon
      exfalso
      simp only [isUpperAz, Bool.and_eq_true, decide_eq_true_eq] at hcon
      obtain ⟨g1, g2⟩ := hcon
      have f2 : c.toNat ≤ 90 := g2
      omega
  · simp only [isUpperAz, Bool.and_eq_true, decide_eq_true_eq] at h
    obtain ⟨h1, h2⟩ := h
    have e1 : (65 : ℕ) ≤ c.toNat := h1
    have e2 : c.toNat ≤ 90 := h2
    constructor
    · intro _
      simp only [isUpperAz, Bool.and_eq_true, decide_eq_true_eq]
      exact ⟨h1, h2⟩
    · intro _
      unfold Char.toUpper
      rw [if_neg]
      intro hcon
      obtain ⟨g1, -⟩ := hcon
      have : (97 : ℕ) ≤ c.toNat := g1
      omega

/-- The source's replacement callback produces one of the two renderings of
the mapped value. -/
theorem simpleReplace_cases (v w : Str) :
    simpleReplace v w = v ∨ simpleReplace v w = titleStr v := by
  cases w with
  | nil => exact Or.inl rfl
  | cons c r =>
    rw [show simpleReplace v (c :: r)
        = if c.toUpper = c then titleStr v else v from rfl]
    split
    · exact Or.inr rfl
    · exact Or.inl rfl

theorem specSimpTokenL_cons_eq {kv : Str × Str} {L : List (Str × Str)} {w : Str}
    (h : lowerStr w = kv.1) :
    specSimpTokenL (kv :: L) w = simpleReplace kv.2 w := by
  have hf : (kv :: L).find? (fun x => lowerStr w == x.1) = some kv :=
    List.find?_cons_of_pos _ (by simp [h])
  simp only [specSimpTokenL, hf]

theorem specSimpTokenL_cons_ne {kv : Str × Str} {L : List (Str × Str)} {w : Str}
    (h : lowerStr w ≠ kv.1) :
    specSimpTokenL (kv :: L) w = specSimpTokenL L w := by
  have hf : (kv :: L).find? (fun x => lowerStr w == x.1)
      = L.find? (fun x => lowerStr w == x.1) :=
    List.find?_cons_of_neg _ (by simp [h])
  simp only [specSimpTokenL, hf]

theorem specSimpTokenL_of_none {L : List (Str × Str)} {w : Str}
    (h : L.find? (fun kv => lowerStr w == kv.1) = none) :
    specSimpTokenL L w = w := by
  simp only [specSimpTokenL, h]

theorem specStepTok_join (kv : Str × Str)
    (hB : joinTokens (splitSp kv.2) = kv.2 ∧ splitSp kv.2 ≠ [] ∧
      joinTokens (splitSp (titleStr kv.2)) = titleStr kv.2 ∧
      splitSp (titleStr kv.2) ≠ []) (w : Str) :
    joinTokens (specStepTok kv w)
      = (if lowerStr w = kv.1 then simpleReplace kv.2 w else w) ∧
    specStepTok kv w ≠ [] := by
  rw [specStepTok]
  by_cases hm : lowerStr w = kv.1
  · rw [if_pos hm, if_pos hm]
    rcases simpleReplace_cases kv.2 w with he | he <;> rw [he]
    · exact ⟨hB.1, hB.2.1⟩
    · exact ⟨hB.2.2.1, hB.2.2.2⟩
  · rw [if_neg hm, if_neg hm]
    exact ⟨rfl, by simp⟩

/-- Every `SIMPLE` key is a nonempty lower-case word, or contains an
underscore (`consequently_`). -/
theorem SIMPLE_keys_ok : ∀ kv ∈ SIMPLE,
    kv.1 ≠ [] ∧ ((∀ c ∈ kv.1, isLowerAz c = true) ∨ '_' ∈ kv.1) := by
  decide

/-- Every `SIMPLE` value splits into its words and joins back. -/
theorem SIMPLE_values_join : ∀ kv ∈ SIMPLE,
    joinTokens (splitSp kv.2) = kv.2 ∧ splitSp kv.2 ≠ [] ∧
    joinTokens (splitSp (titleStr kv.2)) = titleStr kv.2 ∧
    splitSp (titleStr kv.2) ≠ [] := by
  decide

/-- The words of every `SIMPLE` value (in both renderings) are nonempty
letter tokens. -/
theorem SIMPLE_values_alpha : ∀ kv ∈ SIMPLE,
    ∀ u ∈ splitSp kv.2 ++ splitSp (titleStr kv.2),
      u ≠ [] ∧ ∀ ch ∈ u, isAsciiLetter ch = true := by
  decide

/-- No word of any `SIMPLE` value matches any `SIMPLE` key: a replacement is
never re-replaced by a later entry of the fold. -/
theorem SIMPLE_no_recapture : ∀ kv ∈ SIMPLE, ∀ kv' ∈ SIMPLE,
    ∀ u ∈ splitSp kv.2 ++ splitSp (titleStr kv.2), lowerStr u ≠ kv'.1 := by
  decide

/-- The `simplifyWords` fold over an entry suffix, on a letter-token stream:
each token is rewritten by the first entry whose key it matches
case-insensitively, via the source's first-character callback. -/
theorem simplify_fold : ∀ L : List (Str × Str),
    (∀ kv ∈ L, kv.1 ≠ [] ∧ ((∀ c ∈ kv.1, isLowerAz c = true) ∨ '_' ∈ kv.1)) →
    (∀ kv ∈ L, joinTokens (splitSp kv.2) = kv.2 ∧ splitSp kv.2 ≠ [] ∧
      joinTokens (splitSp (titleStr kv.2)) = titleStr kv.2 ∧
      splitSp (titleStr kv.2) ≠ []) →
    (∀ kv ∈ L, ∀ u ∈ splitSp kv.2 ++ splitSp (titleStr kv.2),
      u ≠ [] ∧ ∀ ch ∈ u, isAsciiLetter ch = true) →
    (∀ kv ∈ L, ∀ kv' ∈ L, ∀ u ∈ splitSp kv.2 ++ splitSp (titleStr kv.2),
      lowerStr u ≠ kv'.1) →
    ∀ ws : List Str,
    (∀ w ∈ ws, w ≠ [] ∧ ∀ ch ∈ w, isAsciiLetter ch = true) →
    L.foldl (fun acc kv => replaceWholeWordCI kv.1 (simpleReplace kv.2) acc)
        (joinTokens ws)
      = joinTokens (ws.map (specSimpTokenL L)) := by
  intro L
  induction L with
  | nil =>
    intro _ _ _ _ ws _
    rw [List.foldl_nil]
    congr 1
    refine ((List.map_congr_left ?_).trans (List.map_id' ws)).symm
    intro w _
    rfl
  | cons kv L' ih =>
    intro hA hB hD hC ws hws
    have hA' : ∀ x ∈ L', x.1 ≠ [] ∧ ((∀ c ∈ x.1, isLowerAz c = true) ∨ '_' ∈ x.1) :=
      fun x hx => hA x (List.mem_cons_of_mem _ hx)
    have hB' : ∀ x ∈ L', joinTokens (splitSp x.2) = x.2 ∧ splitSp x.2 ≠ [] ∧
        joinTokens (splitSp (titleStr x.2)) = titleStr x.2 ∧
        splitSp (titleStr x.2) ≠ [] :=
      fun x hx => hB x (List.mem_cons_of_mem _ hx)
    have hD' : ∀ x ∈ L', ∀ u ∈ splitSp x.2 ++ splitSp (titleStr x.2),
        u ≠ [] ∧ ∀ ch ∈ u, isAsciiLetter ch = true :=
      fun x hx => hD x (List.mem_cons_of_mem _ hx)
    have hC' : ∀ x ∈ L', ∀ x' ∈ L', ∀ u ∈ splitSp x.2 ++ splitSp (titleStr x.2),
        lowerStr u ≠ x'.1 :=
      fun x hx x' hx' => hC x (List.mem_cons_of_mem _ hx) x' (List.mem_cons_of_mem _ hx')
    rw [List.foldl_cons]
    rcases (hA kv (by simp)).2 with hlow | hund
    · -- a lower-case letter key: one token-level pass, then the rest
      have hk : kv.1 ≠ [] := (hA kv (by simp)).1
      have hBkv := hB kv (by simp)
      rw [show replaceWholeWordCI kv.1 (simpleReplace kv.2) (joinTokens ws)
          = rwwRun kv.1 (simpleReplace kv.2) none (joinTokens ws) from rfl,
        rwwRun_tokens kv.1 hk hlow (simpleReplace kv.2) ws hws none rfl,
        ← joinTokens_flatMap (specStepTok kv)
          (fun w => if lowerStr w = kv.1 then simpleReplace kv.2 w else w)
          (specStepTok_join kv hBkv) ws]
      have hws' : ∀ u ∈ ws.flatMap (specStepTok kv),
          u ≠ [] ∧ ∀ ch ∈ u, isAsciiLetter ch = true := by
        intro u hu
        obtain ⟨x, hx, hux⟩ := List.mem_flatMap.mp hu
        rw [specStepTok] at hux
        by_cases hm : lowerStr x = kv.1
        · rw [if_pos hm] at hux
          refine hD kv (by simp) u ?_
          rcases simpleReplace_cases kv.2 x with he | he
          · rw [he] at hux
            exact List.mem_append.mpr (Or.inl hux)
          · rw [he] at hux
            exact List.mem_append.mpr (Or.inr hux)
        · rw [if_neg hm] at hux
          simp only [List.mem_singleton] at hux
          rw [hux]
          exact hws x hx
      rw [ih hA' hB' hD' hC' (ws.flatMap (specStepTok kv)) hws',
        List.map_flatMap]
      refine joinTokens_flatMap _ (specSimpTokenL (kv :: L')) ?_ ws
      intro w
      rw [specStepTok]
      by_cases hm : lowerStr w = kv.1
      · rw [if_pos hm, specSimpTokenL_cons_eq hm]
        have hid : (splitSp (simpleReplace kv.2 w)).map (specSimpTokenL L')
            = splitSp (simpleReplace kv.2 w) := by
          have hids : ∀ u ∈ splitSp (simpleReplace kv.2 w),
              specSimpTokenL L' u = u := by
            intro u hu
            apply specSimpTokenL_of_none
            rw [List.find?_eq_none]
            intro x hx
            simp only [beq_iff_eq]
            have hu2 : u ∈ splitSp kv.2 ++ splitSp (titleStr kv.2) := by
              rcases simpleReplace_cases kv.2 w with he | he
              · rw [he] at hu
                exact List.mem_append.mpr (Or.inl hu)
              · rw [he] at hu
                exact List.mem_append.mpr (Or.inr hu)
            exact hC kv (by simp) x (by simp [hx]) u hu2
          exact (List.map_congr_left hids).trans (List.map_id' _)
        rw [hid]
        constructor
        · rcases simpleReplace_cases kv.2 w with he | he <;> rw [he]
          · exact hBkv.1
          · exact hBkv.2.2.1
        · rcases simpleReplace_cases kv.2 w with he | he <;> rw [he]
          · exact hBkv.2.1
          · exact hBkv.2.2.2
      · rw [if_neg hm, specSimpTokenL_cons_ne hm]
        exact ⟨rfl, by simp⟩
    · -- the underscore key: the pass is the identity on letters and spaces
      rw [show replaceWholeWordCI kv.1 (simpleReplace kv.2) (joinTokens ws)
          = rwwRun kv.1 (simpleReplace kv.2) none (joinTokens ws) from rfl,
        rwwRun_underscore_ident kv.1 hund (simpleReplace kv.2) (joinTokens ws)
          (joinTokens_chars ws (fun w hw => (hws w hw).2)) none,
        ih hA' hB' hD' hC' ws hws]
      congr 1
      refine List.map_congr_left ?_
      intro w hw
      refine (specSimpTokenL_cons_ne ?_).symm
      intro hcon
      rw [← hcon] at hund
      obtain ⟨c, hc1, hc2⟩ := List.mem_map.mp hund
      have hl := toLower_of_alpha_lower ((hws w hw).2 c hc1)
      rw [hc2] at hl
      exact absurd hl (by decide)

/-- The entry-list rule at `SIMPLE` is the claim's per-token rule. -/
theorem specSimpToken_eq (w : Str) (hne : w ≠ [])
    (hwa : ∀ ch ∈ w, isAsciiLetter ch = true) :
    specSimpTokenL SIMPLE w = specSimpToken w := by
  obtain ⟨c, r, rfl⟩ : ∃ c r, w = c :: r := by
    cases w with
    | nil => exact absurd rfl hne
    | cons a b => exact ⟨a, b, rfl⟩
  cases hf : SIMPLE.find? (fun kv => lowerStr (c :: r) == kv.1) with
  | none =>
    rw [show specSimpTokenL SIMPLE (c :: r) = c :: r from by
        simp only [specSimpTokenL, hf],
      show specSimpToken (c :: r) = c :: r from by
        simp only [specSimpToken, hf]]
  | some kv =>
    rw [show specSimpTokenL SIMPLE (c :: r) = simpleReplace kv.2 (c :: r) from by
        simp only [specSimpTokenL, hf],
      show specSimpToken (c :: r)
          = (if ((c :: r).head?.map isUpperAz).getD false then titleStr kv.2 else kv.2)
        from by simp only [specSimpToken, hf],
      show simpleReplace kv.2 (c :: r)
          = if c.toUpper = c then titleStr kv.2 else kv.2 from rfl]
    have hca := hwa c (by simp)
    by_cases hu : isUpperAz c = true
    · rw [if_pos ((toUpper_fixed_iff hca).mpr hu), if_pos (by simp [hu])]
    · rw [if_neg (fun hcon => hu ((toUpper_fixed_iff hca).mp hcon)),
        if_neg (by simp [hu])]

set_option maxHeartbeats 1600000 in
/-- C5 (amended): on any whitespace-separated stream of letter tokens — any
casing, in context — `simplifyWords` replaces exactly the tokens that match a
`SimplificationMap` key case-insensitively (whole word), by the mapped value
with its first letter capitalized exactly when the token's first character is
an upper-case letter (so an ALL-CAPS token also gets only the capitalized
value — there is no fully-upper-cased branch), and leaves every other token
unchanged. -/
theorem simplify_word_rule (ws : List Str)
    (hws : ∀ w ∈ ws, w ≠ [] ∧ ∀ ch ∈ w, isAsciiLetter ch = true) :
    simplifyWords (joinTokens ws) = joinTokens (ws.map specSimpToken) := by
  rw [show simplifyWords (joinTokens ws)
      = SIMPLE.foldl (fun acc kv => replaceWholeWordCI kv.1 (simpleReplace kv.2) acc)
          (joinTokens ws) from rfl,
    simplify_fold SIMPLE SIMPLE_keys_ok SIMPLE_values_join SIMPLE_values_alpha
      SIMPLE_no_recapture ws hws]
  congr 1
  exact List.map_congr_left (fun w hw => specSimpToken_eq w (hws w hw).1 (hws w hw).2)

set_option maxHeartbeats 1600000 in
/-- C5 amended witness: a stream with an ALL-CAPS match, a mixed-case match,
a capitalized match with a multi-word value, and a non-matching token. -/
theorem simplify_word_rule_witness :
    (∀ w ∈ [str "NUMEROUS", str "nUmErOuS", str "Ensure", str "cats"],
      w ≠ [] ∧ ∀ ch ∈ w, isAsciiLetter ch = true) ∧
      simplifyWords
          (joinTokens [str "NUMEROUS", str "nUmErOuS", str "Ensure", str "cats"])
        = joinTokens
            ([str "NUMEROUS", str "nUmErOuS", str "Ensure", str "cats"].map
              specSimpToken) :=
  ⟨by decide,
   simplify_word_rule [str "NUMEROUS", str "nUmErOuS", str "Ensure", str "cats"]
     (by decide)⟩

end Humanizer

